import Mathlib

/-!
Shallow embedding of the core of `src/LottoGen.py` (SERCPS/LottoApp):
date normalization (`try_parse_date`), the two table parsers
(`parse_wclc_print`, `parse_generic_tables`), deduplication
(`dedupe_by_date`), the fallback fetcher (`fetch_archives_with_fallback`),
the statistics engine (`compute_stats`), the weighting model
(`smart_weight`), the biased sampler (`smart_pick`) and the deterministic
selector (`top_probability_line`).

Python strings are modelled as `List Char` / `String`; the `re` character
classes `\s`, `\d`, `\w` are modelled by their ASCII fragments (the inputs
of interest are ASCII); Python floats are modelled as exact rationals;
`random.choices` is modelled nondeterministically by a trace of choices,
each of which must carry strictly positive current weight.
-/

/-- Python `re` class `\s` (ASCII fragment). -/
def isSpaceCh (c : Char) : Bool := c.isWhitespace

/-- Python `re` class `\d` (ASCII fragment). -/
def isDigitCh (c : Char) : Bool := c.isDigit

/-- Python `re` class `\w` (ASCII fragment: alphanumerics and underscore). -/
def isWordCh (c : Char) : Bool := c.isAlphanum || c == '_'

/-- Numeric value of a decimal digit character. -/
def digitVal (c : Char) : Nat := c.toNat - 48

/-- Value of a list of decimal digit characters (Python `int`). -/
def natOfDigits (l : List Char) : Nat := l.foldl (fun a c => 10 * a + digitVal c) 0

/-- English month names, in the order of the alternation in the
`month_re` regex of `parse_wclc_print` (January .. December). -/
def MONTHS_RE : List (List Char) :=
  ["January".toList, "February".toList, "March".toList, "April".toList,
   "May".toList, "June".toList, "July".toList, "August".toList,
   "September".toList, "October".toList, "November".toList, "December".toList]

/-- Full English weekday names paired with a dummy value, in the order
`_strptime` tries them for `%A`: sorted by length, longest first (ties keep
locale order Monday..Sunday).  No name is a prefix of another, so the order
only mirrors the source. -/
def WEEKDAYS_A : List (List Char × Nat) :=
  [("Wednesday".toList, 3), ("Thursday".toList, 4), ("Saturday".toList, 6),
   ("Tuesday".toList, 2), ("Monday".toList, 1), ("Friday".toList, 5),
   ("Sunday".toList, 7)]

/-- Full English month names paired with their month number, in the order
`_strptime` tries them for `%B`: sorted by length, longest first (ties keep
calendar order). -/
def MONTHS_B : List (List Char × Nat) :=
  [("September".toList, 9), ("February".toList, 2), ("November".toList, 11),
   ("December".toList, 12), ("January".toList, 1), ("October".toList, 10),
   ("August".toList, 8), ("March".toList, 3), ("April".toList, 4),
   ("June".toList, 6), ("July".toList, 7), ("May".toList, 5)]

/-- Case-insensitive character equality (`_strptime` compiles its regex with
`IGNORECASE`). -/
def ciEq (a b : Char) : Bool := a.toLower == b.toLower

/-- Case-insensitive "the first list is a prefix of the second". -/
def ciPref : List Char → List Char → Bool
  | [], _ => true
  | _ :: _, [] => false
  | a :: as, b :: bs => ciEq a b && ciPref as bs

/-- Find the first name of the table that is a case-insensitive prefix of
`s`; return its value and the remainder of `s`. -/
def findName (names : List (List Char × Nat)) (s : List Char) :
    Option (Nat × List Char) :=
  names.findSome? fun nv =>
    if ciPref nv.1 s then some (nv.2, s.drop nv.1.length) else none

/-- One directive of a compiled `strptime` format: `%A`, `%B`, `%d`, `%Y`,
a literal character, or a whitespace run (`_strptime` replaces whitespace in
the format by `\s+`). -/
inductive FTok where
  | pA : FTok
  | pB : FTok
  | pd : FTok
  | pY : FTok
  | lit : Char → FTok
  | ws : FTok
deriving DecidableEq

/-- The fields `strptime` extracts that matter here (weekday is matched by
`%A` but not recorded: `strptime` does not check it against the date). -/
structure PDate where
  month : Nat
  day : Nat
  year : Nat
deriving DecidableEq

/-- The two-digit branches of the `%d` regex `3[01]|[12]\d|0[1-9]|[1-9]`,
in alternation order. -/
def dayVal2 (c1 c2 : Char) : Option Nat :=
  if c1 == '3' && (c2 == '0' || c2 == '1') then some (30 + digitVal c2)
  else if (c1 == '1' || c1 == '2') && isDigitCh c2 then
    some (10 * digitVal c1 + digitVal c2)
  else if c1 == '0' && isDigitCh c2 && !(c2 == '0') then some (digitVal c2)
  else none

/-- The one-digit branch `[1-9]` of the `%d` regex. -/
def dayVal1 (c1 : Char) : Option Nat :=
  if isDigitCh c1 && !(c1 == '0') then some (digitVal c1) else none

/-- Run a compiled format against the input, `strptime`-style: the whole
input must be consumed (`strptime` raises unless the match reaches the end).
Whitespace directives take the maximal run (every directive that can follow
one starts with a non-whitespace character, so this equals the regex
backtracking semantics); `%d` backtracks through its alternation. -/
def matchToks : List FTok → List Char → PDate → Option PDate
  | [], s, acc => if s.isEmpty then some acc else none
  | FTok.pA :: fmt, s, acc =>
    match findName WEEKDAYS_A s with
    | some wr => matchToks fmt wr.2 acc
    | none => none
  | FTok.pB :: fmt, s, acc =>
    match findName MONTHS_B s with
    | some mr => matchToks fmt mr.2 { acc with month := mr.1 }
    | none => none
  | FTok.pd :: fmt, s, acc =>
    match s with
    | c1 :: c2 :: rest =>
      (match dayVal2 c1 c2 with
       | some v => matchToks fmt rest { acc with day := v }
       | none => none).orElse
        fun _ =>
          match dayVal1 c1 with
          | some v => matchToks fmt (c2 :: rest) { acc with day := v }
          | none => none
    | [c1] =>
      match dayVal1 c1 with
      | some v => matchToks fmt [] { acc with day := v }
      | none => none
    | [] => none
  | FTok.pY :: fmt, s, acc =>
    match s with
    | c1 :: c2 :: c3 :: c4 :: rest =>
      if isDigitCh c1 && isDigitCh c2 && isDigitCh c3 && isDigitCh c4 then
        matchToks fmt rest { acc with year := natOfDigits [c1, c2, c3, c4] }
      else none
    | _ => none
  | FTok.lit ch :: fmt, s, acc =>
    match s with
    | c :: rest => if ciEq c ch then matchToks fmt rest acc else none
    | [] => none
  | FTok.ws :: fmt, s, acc =>
    let sp := s.takeWhile isSpaceCh
    if sp.isEmpty then none else matchToks fmt (s.dropWhile isSpaceCh) acc

/-- Compiled `"%A %B %d %Y"`. -/
def FMT1 : List FTok := [FTok.pA, FTok.ws, FTok.pB, FTok.ws, FTok.pd, FTok.ws, FTok.pY]

/-- Compiled `"%A, %B %d, %Y"`. -/
def FMT2 : List FTok :=
  [FTok.pA, FTok.lit ',', FTok.ws, FTok.pB, FTok.ws, FTok.pd, FTok.lit ',',
   FTok.ws, FTok.pY]

/-- Compiled `"%B %d, %Y"`. -/
def FMT3 : List FTok := [FTok.pB, FTok.ws, FTok.pd, FTok.lit ',', FTok.ws, FTok.pY]

/-- `DATE_PATTERNS = ["%A %B %d %Y","%A, %B %d, %Y","%B %d, %Y"]`. -/
def DATE_PATTERNS : List (List FTok) := [FMT1, FMT2, FMT3]

/-- Leap-year rule used by `datetime.date`. -/
def isLeap (y : Nat) : Bool := y % 4 == 0 && (y % 100 != 0 || y % 400 == 0)

/-- Days in a month, as validated by the `datetime.date` constructor. -/
def daysInMonth (m y : Nat) : Nat :=
  if m == 2 then (if isLeap y then 29 else 28)
  else if m == 4 || m == 6 || m == 9 || m == 11 then 30
  else 31

/-- The `datetime.date` constructor validation (`MINYEAR = 1`,
`MAXYEAR = 9999`); a failure raises `ValueError`, caught by
`try_parse_date`, which then tries the next format. -/
def validDate (p : PDate) : Bool :=
  1 ≤ p.year && p.year ≤ 9999 && 1 ≤ p.month && p.month ≤ 12 &&
    1 ≤ p.day && p.day ≤ daysInMonth p.month p.year

/-- Left-pad the decimal digits of `n` with zeros to width `w`
(`date.isoformat` prints `YYYY-MM-DD`). -/
def padNum (w n : Nat) : List Char :=
  let ds := (Nat.toDigits 10 n)
  List.replicate (w - ds.length) '0' ++ ds

/-- `date.isoformat()`. -/
def isoOf (p : PDate) : String :=
  String.mk (padNum 4 p.year ++ ['-'] ++ padNum 2 p.month ++ ['-'] ++ padNum 2 p.day)

/-- Python `re.sub(",", "", text)`. -/
def removeCommas (s : List Char) : List Char := s.filter fun c => !(c == ',')

/-- Python `str.strip()`. -/
def stripWS (s : List Char) : List Char :=
  ((s.dropWhile isSpaceCh).reverse.dropWhile isSpaceCh).reverse

/-- `try_parse_date` of `LottoGen.py` on a character list: strip commas and
surrounding whitespace, then return the first `DATE_PATTERNS` entry that
matches the whole string and yields a constructible date, as ISO
`YYYY-MM-DD`; otherwise `none`. -/
def try_parse_date_chars (text : List Char) : Option String :=
  let t := stripWS (removeCommas text)
  DATE_PATTERNS.findSome? fun fmt =>
    (matchToks fmt t ⟨1, 1, 1900⟩).bind fun p =>
      if validDate p then some (isoOf p) else none

/-- `try_parse_date` on a Python string. -/
def try_parse_date (text : String) : Option String :=
  try_parse_date_chars text.toList

/-- Scanner for the maximal runs of `\w` characters: `acc` holds the
current run in reverse. -/
def wordRunsGo (acc : List Char) : List Char → List (List Char)
  | [] => if acc.isEmpty then [] else [acc.reverse]
  | c :: cs =>
    if isWordCh c then wordRunsGo (c :: acc) cs
    else if acc.isEmpty then wordRunsGo [] cs
    else acc.reverse :: wordRunsGo [] cs

/-- Maximal runs of `\w` characters of a text, in order: the only places a
pattern bracketed by `\b` word boundaries can match. -/
def wordRuns (s : List Char) : List (List Char) := wordRunsGo [] s

/-- `[int(n) for n in re.findall(r"\b\d{1,2}\b", text) if 1 <= int(n) <= max_n]`:
a `\b\d{1,2}\b` match is exactly a maximal word run made of one or two
digits; values are then filtered to `[1, max_n]`. -/
def numsInChars (max_n : Nat) (text : List Char) : List Nat :=
  ((wordRuns text).filterMap fun run =>
    if run.length ≤ 2 && run.all isDigitCh then some (natOfDigits run) else none).filter
    fun v => 1 ≤ v && v ≤ max_n

/-- The month name of the `month_re` alternation matching at the head of
`s`, if any (case-sensitive; no month name is a prefix of another, so the
alternation order of `MONTHS_RE` picks the unique candidate). -/
def monthAt (s : List Char) : Option (List Char) :=
  MONTHS_RE.find? fun m => m.isPrefixOf s

/-- Scanner for `re.split(month_re, text)`: `skip > 0` means the scanner
is still inside a matched month name (`re.split` resumes after the match,
so those positions are not retried); `acc` accumulates the current piece
in reverse. -/
def splitMonthsGo (skip : Nat) (acc : List Char) : List Char → List (List Char)
  | [] => [acc.reverse]
  | c :: cs =>
    match skip with
    | k + 1 => splitMonthsGo k acc cs
    | 0 =>
      match monthAt (c :: cs) with
      | some m => acc.reverse :: m :: splitMonthsGo (m.length - 1) [] cs
      | none => splitMonthsGo 0 (c :: acc) cs

/-- `parts = re.split(month_re, text)` with its single capture group: the
pieces between matches alternate with the matched month names,
`[pre, m1, rest1, m2, rest2, ..., post]`. -/
def splitMonths (text : List Char) : List (List Char) := splitMonthsGo 0 [] text

/-- The `(parts[i], parts[i+1])` pairs for `i in range(1, len(parts), 2)`
(with `""` when `parts[i+1]` is missing, as in the source). -/
def pairBlocks : List (List Char) → List (List Char × List Char)
  | m :: r :: rest => (m, r) :: pairBlocks rest
  | [m] => [(m, [])]
  | [] => []

/-- Drop `parts[0]` and pair up the month names with the following text. -/
def monthBlocks : List (List Char) → List (List Char × List Char)
  | _pre :: rest => pairBlocks rest
  | [] => []

/-- The groups of a match of `rf"{month}\s+\d{1,2},?\s+\d{4}"` after the
month name: first whitespace run, day digits, optional comma, second
whitespace run, year digits. -/
structure DM where
  ws1 : List Char
  day : List Char
  comma : Bool
  ws2 : List Char
  year : List Char
deriving DecidableEq

/-- Reassemble `match.group(0)` from the month name and the groups. -/
def dmText (month : List Char) (d : DM) : List Char :=
  month ++ d.ws1 ++ d.day ++ (if d.comma then [','] else []) ++ d.ws2 ++ d.year

/-- Match `\s+\d{1,2},?\s+\d{4}` at the head of `s`.  The regex semantics
is deterministic here: shortening a greedy `\s+` leaves a whitespace
character where a digit or comma is required; a digit run of length three
or more fails under every split of `\d{1,2}` (the follower is `,` or
`\s`); dropping a present comma makes `\s+` face the comma. -/
def matchAfterMonth (s : List Char) : Option DM :=
  let ws1 := s.takeWhile isSpaceCh
  if ws1.isEmpty then none else
  let r1 := s.dropWhile isSpaceCh
  let ds := r1.takeWhile isDigitCh
  if ds.isEmpty || 2 < ds.length then none else
  let r2 := r1.drop ds.length
  let cr :=
    match r2 with
    | ',' :: t => (true, t)
    | _ => (false, r2)
  let ws2 := cr.2.takeWhile isSpaceCh
  if ws2.isEmpty then none else
  let r4 := cr.2.dropWhile isSpaceCh
  let yr := r4.take 4
  if yr.length == 4 && yr.all isDigitCh then some ⟨ws1, ds, cr.1, ws2, yr⟩ else none

/-- `re.search(rf"{month}\s+\d{{1,2}},?\s+\d{{4}}", block)`: try the
pattern at every position, leftmost match first; the pattern begins with
the literal month name. -/
def searchMonthDate (month : List Char) : List Char → Option DM
  | [] => none
  | c :: cs =>
    if month.isPrefixOf (c :: cs) then
      match matchAfterMonth ((c :: cs).drop month.length) with
      | some d => some d
      | none => searchMonthDate month cs
    else searchMonthDate month cs

/-- A raw `(date, main, bonus)` record of the parsers.  `date` is an
`Option` because `parse_wclc_print` stores the result of `try_parse_date`
without checking it for `None`. -/
structure RawDraw where
  date : Option String
  main : List Nat
  bonus : Option Nat
deriving DecidableEq

/-- Ordering used on the dict keys in `dedupe_by_date` (`sorted` on the
date keys).  Every call site has either all-`None` keys (`parse_wclc_print`)
or all-string keys (`parse_generic_tables`); a mixed list would raise
`TypeError` in Python and never occurs, so placing `None` first is
unobservable. -/
def keyLe (a b : Option String) : Prop :=
  match a, b with
  | none, _ => True
  | some _, none => False
  | some x, some y => x ≤ y

instance : DecidableRel keyLe := fun a b => by
  unfold keyLe
  cases a <;> cases b <;> infer_instance

/-- `dedupe_by_date`: keep one `(main, bonus)` per distinct date (the last
record for that date wins) and return the records sorted by ascending date
key. -/
def dedupe_by_date (draws : List RawDraw) : List RawDraw :=
  let skeys := List.insertionSort keyLe ((draws.map fun r => r.date).dedup)
  skeys.filterMap fun k =>
    ((draws.filter fun r => r.date = k).getLast?).map fun r =>
      ⟨k, r.main, r.bonus⟩

/-- One iteration of the block loop of `parse_wclc_print`.  The source
appends the record as soon as the date regex matched and enough in-range
numbers were found, whether or not `try_parse_date` succeeded, so `date`
may be `none`. -/
def wclcBlock (max_n count : Nat) (month rest : List Char) : Option RawDraw :=
  match searchMonthDate month (month ++ rest) with
  | none => none
  | some d =>
    let date_iso := try_parse_date_chars (dmText month d)
    let nums := numsInChars max_n (month ++ rest)
    if count ≤ nums.length then some ⟨date_iso, nums.take count, nums[count]?⟩
    else none

/-- `parse_wclc_print(soup, max_n, count)`, on the flattened visible text
of the page (`soup.get_text(" ", strip=True)`). -/
def parse_wclc_print (text : String) (max_n count : Nat) : List RawDraw :=
  dedupe_by_date ((monthBlocks (splitMonths text.toList)).filterMap fun mr =>
    wclcBlock max_n count mr.1 mr.2)

/-- The `seen`/`cleaned` loop of `parse_generic_tables`: remove duplicates
keeping first occurrences. -/
def cleanDups (seen : List Nat) : List Nat → List Nat
  | [] => []
  | v :: vs => if v ∈ seen then cleanDups seen vs else v :: cleanDups (v :: seen) vs

/-- One row of `parse_generic_tables`: first cell with a parseable date
wins; numbers come from every cell (the date cell included), deduplicated
keeping first occurrences. -/
def genericRow (max_n count : Nat) (cells : List String) : Option RawDraw :=
  if cells.isEmpty then none else
  match cells.findSome? (fun c => try_parse_date c) with
  | none => none
  | some date_iso =>
    let nums := cells.flatMap fun c => numsInChars max_n c.toList
    let cleaned := cleanDups [] nums
    if count ≤ cleaned.length then
      some ⟨some date_iso, cleaned.take count, cleaned[count]?⟩
    else none

/-- `parse_generic_tables(soup, max_n, count)`, on the table structure of
the document: every `table`, every `tr`, the text of its `td`/`th` cells. -/
def parse_generic_tables (tables : List (List (List String)))
    (max_n count : Nat) : List RawDraw :=
  dedupe_by_date (tables.flatMap fun rows =>
    rows.filterMap fun cells => genericRow max_n count cells)

/-- A fetched document as the two parsers see it: the flattened visible
text (for `parse_wclc_print`) and the table/row/cell structure (for
`parse_generic_tables`). -/
structure Soup where
  text : String
  tables : List (List (List String))

/-- One entry of a game's `sources` list. -/
structure SourceGroup where
  label : String
  urls : List String
  parser : String

/-- The per-game configuration (`count`, `max_n`, `sources`). -/
structure GameCfg where
  count : Nat
  max_n : Nat
  sources : List SourceGroup

/-- Parser dispatch: `parse_wclc_print(...) if parser=="wclc" else
parse_generic_tables(...)`. -/
def parseWith (strat : String) (soup : Soup) (max_n count : Nat) : List RawDraw :=
  if strat = "wclc" then parse_wclc_print soup.text max_n count
  else parse_generic_tables soup.tables max_n count

/-- The per-group accumulation of `fetch_archives_with_fallback`: fetch
each URL in order (`none` models an exception while handling that URL; a
non-200 status also skips it), parse with the group's strategy, extend
`all_draws`, then dedupe across the whole group. -/
def fetchGroup (fetch : String → Option (Nat × Soup)) (max_n count : Nat)
    (g : SourceGroup) : List RawDraw :=
  dedupe_by_date ((g.urls.map fun u =>
    match fetch u with
    | none => []
    | some r => if r.1 ≠ 200 then [] else parseWith g.parser r.2 max_n count).flatten)

/-- The group loop of `fetch_archives_with_fallback`: first group whose
deduped accumulation is non-empty wins; `([], "none")` if none does. -/
def fetchGroups (fetch : String → Option (Nat × Soup)) (max_n count : Nat) :
    List SourceGroup → List RawDraw × String
  | [] => ([], "none")
  | g :: gs =>
    let all_draws := fetchGroup fetch max_n count g
    if all_draws.isEmpty then fetchGroups fetch max_n count gs
    else (all_draws, g.label)

/-- `fetch_archives_with_fallback(game_key)`.  `libsAvailable` models
`requests is not None and BeautifulSoup is not None`; `fetch` models the
network and HTML-parse boundary.  Progress callbacks, headers and the
inter-request sleep do not affect the return value and are not modelled. -/
def fetch_archives_with_fallback (libsAvailable : Bool)
    (fetch : String → Option (Nat × Soup)) (cfg : GameCfg) :
    List RawDraw × String :=
  if !libsAvailable then ([], "offline")
  else fetchGroups fetch cfg.max_n cfg.count cfg.sources

/-- The dict returned by `compute_stats`. -/
structure Stats where
  freq : List Nat
  last_seen : List (Option Nat)
  hot : List (Nat × Nat)
  cold : List (Nat × Nat)
  overdue : List (Nat × Nat)
  sample_size : Nat
deriving DecidableEq

/-- Python `sorted(key=lambda x: x[1], reverse=True)` on `(n, key)` pairs:
a stable descending sort; insertion sort with this relation places an
earlier element before later elements of equal key, matching Python's
stability. -/
def descBySnd (x y : Nat × Nat) : Prop := y.2 ≤ x.2

/-- Python `sorted(key=lambda x: x[1])`: stable ascending. -/
def ascBySnd (x y : Nat × Nat) : Prop := x.2 ≤ y.2

instance : DecidableRel descBySnd := fun x y => Nat.decLe y.2 x.2

instance : DecidableRel ascBySnd := fun x y => Nat.decLe x.2 y.2

instance : IsTotal (Nat × Nat) descBySnd := ⟨fun a b => le_total b.2 a.2⟩

instance : IsTrans (Nat × Nat) descBySnd :=
  ⟨fun _ _ _ hab hbc => le_trans hbc hab⟩

instance : IsTotal (Nat × Nat) ascBySnd := ⟨fun a b => le_total a.2 b.2⟩

instance : IsTrans (Nat × Nat) ascBySnd :=
  ⟨fun _ _ _ hab hbc => le_trans hab hbc⟩

/-- The body of the draw loop of `compute_stats` as a function of the
record's main numbers (the date and bonus of a record are never read):
bump the position counter, and for each drawn `n` increment `freq[n]` and
set `last_seen[n]` to the position.  Python would raise `IndexError` for
`n` beyond `max_n`; `List.set` is a no-op there, a case no claim
exercises (their hypotheses keep `n ≤ max_n`). -/
def statStepM (st : List Nat × List (Option Nat) × Nat) (main : List Nat) :
    List Nat × List (Option Nat) × Nat :=
  let i := st.2.2 + 1
  let fl := main.foldl
    (fun (p : List Nat × List (Option Nat)) n =>
      (p.1.set n (p.1.getD n 0 + 1), p.2.set n (some i)))
    (st.1, st.2.1)
  (fl.1, fl.2, i)

/-- The lookback slice `draws[-lookback:]`, applied only when `lookback`
is truthy (`if lookback:` is false both for `None` and for `0`). -/
def sliceLookback (lookback : Option Nat) (draws : List RawDraw) : List RawDraw :=
  match lookback with
  | none => draws
  | some k => if k = 0 then draws else draws.drop (draws.length - k)

/-- The overdue gap: `cur - last_seen[n]` when seen, else `cur`. -/
def gapAt (last_seen : List (Option Nat)) (cur n : Nat) : Nat :=
  match last_seen.getD n none with
  | some p => cur - p
  | none => cur

/-- The `freq`/`last_seen`/`i` accumulation of `compute_stats` over the
(already sliced) draw list. -/
def statsAcc (ds : List RawDraw) (max_n : Nat) :
    List Nat × List (Option Nat) × Nat :=
  ds.foldl (fun a r => statStepM a r.main)
    (List.replicate (max_n + 1) 0, List.replicate (max_n + 1) none, 0)

/-- `compute_stats(draws, max_n, count, lookback)`; `{}` on an empty draw
list is modelled as `none`.  `count` is accepted but never read, as in the
source. -/
def compute_stats (draws : List RawDraw) (max_n count : Nat)
    (lookback : Option Nat) : Option Stats :=
  if draws.isEmpty then none else
  let st := statsAcc (sliceLookback lookback draws) max_n
  let cur := st.2.2 + 1
  let overdue := List.insertionSort descBySnd
    ((List.range' 1 max_n).map fun n => (n, gapAt st.2.1 cur n))
  let hot := List.insertionSort descBySnd
    ((List.range' 1 max_n).map fun n => (n, st.1.getD n 0))
  let cold := List.insertionSort ascBySnd
    ((List.range' 1 max_n).map fun n => (n, st.1.getD n 0))
  some ⟨st.1, st.2.1, hot, cold, overdue, st.2.2⟩

/-- Python dict assignment `d[k] = v`: update in place if the key exists,
else append. -/
def dictUpsert (d : List (Nat × Nat)) (k v : Nat) : List (Nat × Nat) :=
  if d.any fun p => p.1 == k then d.map fun p => if p.1 == k then (p.1, v) else p
  else d ++ [(k, v)]

/-- The dict comprehension `{n: i+1 for i,(n,_) in enumerate(l)}`. -/
def rankDict (l : List (Nat × Nat)) : List (Nat × Nat) :=
  l.enum.foldl (fun d p => dictUpsert d p.2.1 (p.1 + 1)) []

/-- Dict lookup `d[k]`.  A missing key raises `KeyError` in Python; it is
modelled as `0`, which no reachable call observes: the rank dicts cover
`1..max_n` whenever the stats come from `compute_stats`. -/
def dictGet (d : List (Nat × Nat)) (k : Nat) : Nat :=
  ((d.find? fun p => p.1 == k).map fun p => p.2).getD 0

/-- `smart_weight(stats, max_n, flavor)`: base weight `1.0` everywhere
(index `0` is never touched by the loop), plus rank bonuses on `1..max_n`.
Floats are modelled as exact rationals (`0.5 = 1/2` exactly); the in-place
`base[n] += ...` loop is rendered pointwise over the fresh list. -/
def smart_weight (stats : Stats) (max_n : Nat) (flavor : String) : List ℚ :=
  let hot_rank := rankDict stats.hot
  let overdue_rank := rankDict stats.overdue
  (List.range (max_n + 1)).map fun n =>
    if n = 0 then 1 else
    let hr : ℚ :=
      ((hot_rank.length : ℚ) + 1 - (dictGet hot_rank n : ℚ)) / (hot_rank.length : ℚ)
    let orank : ℚ :=
      ((overdue_rank.length : ℚ) + 1 - (dictGet overdue_rank n : ℚ)) /
        (overdue_rank.length : ℚ)
    if flavor = "hot" then 1 + 2 * hr + (1 / 2) * orank
    else if flavor = "overdue" then 1 + 2 * orank + (1 / 2) * hr
    else 1 + 1 * hr + 1 * orank

/-- Reading a number's frequency out of a snapshot. -/
def freqOf (st : Stats) (n : Nat) : Nat := st.freq.getD n 0

/-- A number's overdue gap as `compute_stats` computes it: with
`cur = sample_size + 1`, `cur - last_seen[n]` when seen, else `cur`. -/
def gapOf (st : Stats) (n : Nat) : Nat :=
  match st.last_seen.getD n none with
  | some p => st.sample_size + 1 - p
  | none => st.sample_size + 1

/-- One iteration of the `while` loop of `smart_pick` for choice `c`:
`picks.add(i); base[i] = 0.0`. -/
def pickStep (st : List ℚ × Finset ℕ) (c : ℕ) : List ℚ × Finset ℕ :=
  (st.1.set c 0, insert c st.2)

/-- Run the loop of `smart_pick` over a trace of choices. -/
def runPicks (base : List ℚ) (cs : List ℕ) : List ℚ × Finset ℕ :=
  cs.foldl pickStep (base, ∅)

/-- `random.choices(range(1, max_n+1), weights=base[1:], k=1)[0]` can
return exactly the indices in `[1, max_n]` whose current weight is
strictly positive; a trace is valid when each choice is such an index at
its point in the run. -/
def ValidTrace (max_n : Nat) : List ℚ → List ℕ → Prop
  | _, [] => True
  | base, c :: cs =>
    (1 ≤ c ∧ c ≤ max_n ∧ 0 < base.getD c 0) ∧ ValidTrace max_n (base.set c 0) cs

/-- `smart_pick(stats, max_n, count, flavor)` for a given execution trace
`cs` of the random choices: `sorted(picks)` after the loop.  The loop
stops once `len(picks) == count`; the claims about it quantify over valid
traces of length `count`. -/
def smart_pick (stats : Stats) (max_n count : Nat) (flavor : String)
    (cs : List ℕ) : List ℕ :=
  ((runPicks (smart_weight stats max_n flavor) cs).2).sort (· ≤ ·)

/-- `top_probability_line(stats, max_n, count, flavor)`:
`ranking = sorted(range(1, max_n+1), key=lambda n: base[n], reverse=True)`
(stable descending), then `sorted(ranking[:count])`. -/
def top_probability_line (stats : Stats) (max_n count : Nat)
    (flavor : String) : List ℕ :=
  let base := smart_weight stats max_n flavor
  let ranking := List.insertionSort (fun a b => base.getD b 0 ≤ base.getD a 0)
    (List.range' 1 max_n)
  List.insertionSort (· ≤ ·) (ranking.take count)

/-! ### Concrete inputs used by witnesses and counterexamples -/

/-- A fetch oracle: the first URL fails, the second returns a page with
one table row. -/
def fetchF : String → Option (Nat × Soup) := fun u =>
  if u = "u2" then
    some (200, ⟨"", [[["Saturday, January 4, 2025", "01 05 12 23 34 47 09"]]]⟩)
  else none

/-- A two-group configuration: the first group's only URL fails, the
second group's URL yields one generic-table record. -/
def fetchCfg : GameCfg :=
  ⟨6, 49, [⟨"WCLC", ["u1"], "wclc"⟩, ⟨"OLG", ["u2"], "generic"⟩]⟩

/-- Two draws over numbers `1..3`, two numbers each, used by the C6
witness. -/
def wit6Draws : List RawDraw :=
  [⟨some "2025-01-03", [1, 2], some 7⟩, ⟨some "2025-01-04", [2, 3], none⟩]

/-- The snapshot of `wit6Draws` with a lookback of 1. -/
def wit6Stats : Stats :=
  (compute_stats wit6Draws 3 2 (some 1)).getD ⟨[], [], [], [], [], 0⟩

/-- The page text of the parser scenario in the spec. -/
def txtC1 : String := "Saturday January 4, 2025 01 05 12 23 34 47 09"

/-- A page text whose block contains a repeated in-range number. -/
def txtDup : String := "January 4, 2025 05 05 12 23 34 47"

/-- Draws over `1..12` for the C4 counterexample: `6` has the unique top
frequency, `1..6` share the maximal recency gap, `7..12` were seen last. -/
def cex4Draws : List RawDraw :=
  [⟨none, [6, 6, 1, 2, 3, 4], none⟩, ⟨none, [6, 1, 2, 3, 4, 5], none⟩,
   ⟨none, [7, 8, 9, 10, 11, 12], none⟩]

/-- The snapshot of `cex4Draws`. -/
def cex4Stats : Stats :=
  (compute_stats cex4Draws 12 6 none).getD ⟨[], [], [], [], [], 0⟩

/-- Draws over `1..4` for the C4 amended-claim witness: `2` has the top
frequency, only `1` and `2` share the maximal gap. -/
def wit4Draws : List RawDraw :=
  [⟨none, [2, 2, 2, 1], none⟩, ⟨none, [3], none⟩, ⟨none, [4], none⟩]

/-- The snapshot of `wit4Draws`. -/
def wit4Stats : Stats :=
  (compute_stats wit4Draws 4 4 none).getD ⟨[], [], [], [], [], 0⟩

/-- A snapshot differing from `wit4Stats` only in fields the weighting
model never reads. -/
def wit10Stats : Stats :=
  { wit4Stats with freq := [], cold := [], sample_size := 99 }

/-- A draw list for the C9 witness. -/
def wit9a : List RawDraw :=
  [⟨some "2025-01-03", [1, 2], none⟩, ⟨some "2025-01-04", [2], some 9⟩]

/-- The same dates and main numbers as `wit9a`, different bonuses. -/
def wit9b : List RawDraw :=
  [⟨some "2025-01-03", [1, 2], some 3⟩, ⟨some "2025-01-04", [2], none⟩]

/-! ### Theorems -/

/-- If every group of the list yields an empty deduped accumulation, the
group loop returns `([], "none")`. -/
theorem fetchGroups_all_empty (fetch : String → Option (Nat × Soup))
    (mn c : Nat) (gs : List SourceGroup)
    (h : ∀ g ∈ gs, fetchGroup fetch mn c g = []) :
    fetchGroups fetch mn c gs = ([], "none") := by
  induction gs with
  | nil => rfl
  | cons g gs ih =>
    have hg : fetchGroup fetch mn c g = [] := h g (List.mem_cons_self g gs)
    simp only [fetchGroups, hg]
    exact ih fun x hx => h x (List.mem_cons_of_mem g hx)

/-- If the groups before position `i` all yield nothing and group `i`
yields a non-empty accumulation, the loop returns group `i`'s records and
label. -/
theorem fetchGroups_first (fetch : String → Option (Nat × Soup))
    (mn c : Nat) (gs : List SourceGroup) (i : Nat) (hi : i < gs.length)
    (hbefore : ∀ j, (hj : j < i) →
      fetchGroup fetch mn c (gs.get ⟨j, lt_trans hj hi⟩) = [])
    (hit : fetchGroup fetch mn c (gs.get ⟨i, hi⟩) ≠ []) :
    fetchGroups fetch mn c gs =
      (fetchGroup fetch mn c (gs.get ⟨i, hi⟩), (gs.get ⟨i, hi⟩).label) := by
  induction gs generalizing i with
  | nil => exact absurd hi (Nat.not_lt_zero i)
  | cons g gs ih =>
    cases i with
    | zero =>
      simp only [List.get] at hit ⊢
      simp only [fetchGroups, List.isEmpty_iff]
      rw [if_neg hit]
    | succ i =>
      have hg : fetchGroup fetch mn c g = [] := by
        have := hbefore 0 (Nat.succ_pos i)
        simpa using this
      simp only [fetchGroups, hg, List.isEmpty_nil, if_pos]
      have hi2 : i < gs.length := Nat.lt_of_succ_lt_succ hi
      have := ih i hi2 (fun j hj => by
        have := hbefore (j + 1) (Nat.succ_lt_succ hj)
        simpa using this) (by simpa using hit)
      simpa using this

/-- C5: the fallback fetcher tries the source groups in their configured
order and returns `(records, label)` for the first group whose
accumulated, deduplicated records are non-empty; `([], "none")` when every
group yields nothing; and `([], "offline")`, before attempting any group,
when the fetch/parse capability is unavailable. -/
theorem fetch_fallback_contract (libsAvailable : Bool)
    (fetch : String → Option (Nat × Soup)) (cfg : GameCfg) :
    (libsAvailable = false →
      fetch_archives_with_fallback libsAvailable fetch cfg = ([], "offline")) ∧
    (libsAvailable = true →
      (∀ g ∈ cfg.sources, fetchGroup fetch cfg.max_n cfg.count g = []) →
      fetch_archives_with_fallback libsAvailable fetch cfg = ([], "none")) ∧
    (libsAvailable = true →
      ∀ i, (hi : i < cfg.sources.length) →
      (∀ j, (hj : j < i) →
        fetchGroup fetch cfg.max_n cfg.count (cfg.sources.get ⟨j, lt_trans hj hi⟩) = []) →
      fetchGroup fetch cfg.max_n cfg.count (cfg.sources.get ⟨i, hi⟩) ≠ [] →
      fetch_archives_with_fallback libsAvailable fetch cfg =
        (fetchGroup fetch cfg.max_n cfg.count (cfg.sources.get ⟨i, hi⟩),
          (cfg.sources.get ⟨i, hi⟩).label)) := by
  refine ⟨fun hoff => ?_, fun hon hall => ?_, fun hon i hi hbefore hit => ?_⟩
  · simp [fetch_archives_with_fallback, hoff]
  · simp only [fetch_archives_with_fallback, hon, Bool.not_true, Bool.false_eq_true,
      if_false]
    exact fetchGroups_all_empty fetch cfg.max_n cfg.count cfg.sources hall
  · simp only [fetch_archives_with_fallback, hon, Bool.not_true, Bool.false_eq_true,
      if_false]
    exact fetchGroups_first fetch cfg.max_n cfg.count cfg.sources i hi hbefore hit

/-- Witness for C5 at concrete inputs: with the capability available, a
first group yielding nothing (its only URL fails) and a second group
yielding one record, the fetcher returns the second group's records and
label; with the capability unavailable it reports `offline`. -/
theorem fetch_fallback_contract_witness :
    fetch_archives_with_fallback true fetchF fetchCfg =
      ([⟨some "2025-01-04", [4, 1, 5, 12, 23, 34], some 47⟩], "OLG") ∧
    fetch_archives_with_fallback false fetchF fetchCfg = ([], "offline") := by
  constructor
  · have h := (fetch_fallback_contract true fetchF fetchCfg).2.2 rfl 1
      (show 1 < fetchCfg.sources.length by decide)
      (fun j hj => by
        interval_cases j
        exact show fetchGroup fetchF fetchCfg.max_n fetchCfg.count
          (fetchCfg.sources.get ⟨0, by decide⟩) = [] by decide)
      (show fetchGroup fetchF fetchCfg.max_n fetchCfg.count
        (fetchCfg.sources.get ⟨1, by decide⟩) ≠ [] by decide)
    exact h.trans (by decide)
  · exact (fetch_fallback_contract false fetchF fetchCfg).1 rfl

/-- `getD` after `set` at the written index. -/
theorem getD_set_self_nat (l : List Nat) (j v : Nat) (h : j < l.length) :
    (l.set j v).getD j 0 = v := by
  simp [List.getD_eq_getElem?_getD, List.getElem?_set_self h]

/-- `getD` after `set` at a different index. -/
theorem getD_set_ne_nat (l : List Nat) (i j v : Nat) (h : i ≠ j) :
    (l.set i v).getD j 0 = l.getD j 0 := by
  simp [List.getD_eq_getElem?_getD, List.getElem?_set_ne h]

/-- Incrementing one in-window cell raises the windowed sum by one. -/
theorem sum_getD_set_incr (l : List Nat) (j : Nat) :
    ∀ (lo len : Nat), lo ≤ j → j < lo + len → j < l.length →
    ((List.range' lo len).map fun n => (l.set j (l.getD j 0 + 1)).getD n 0).sum =
      ((List.range' lo len).map fun n => l.getD n 0).sum + 1 := by
  intro lo len
  induction len generalizing lo with
  | zero => omega
  | succ len ih =>
    intro hlo hj hl
    rw [List.range'_succ, List.map_cons, List.sum_cons, List.map_cons, List.sum_cons]
    by_cases hc : j = lo
    · subst hc
      rw [getD_set_self_nat l _ _ hl]
      have hrest :
          ((List.range' (j + 1) len).map fun n => (l.set j (l.getD j 0 + 1)).getD n 0) =
            (List.range' (j + 1) len).map fun n => l.getD n 0 := by
        apply List.map_congr_left
        intro n hn
        have hn2 := List.mem_range'_1.mp hn
        exact getD_set_ne_nat l j n _ (by omega)
      rw [hrest]
      omega
    · rw [getD_set_ne_nat l j lo _ hc]
      rw [ih (lo + 1) (by omega) (by omega) hl]
      omega

/-- The inner `for n in main` loop of `compute_stats`: it preserves the
length of `freq` and adds `main.length` to the windowed frequency sum when
every entry is in `[1, max_n]`. -/
theorem freqFold_sum (mn : Nat) :
    ∀ (main : List Nat) (fr : List Nat) (ls : List (Option Nat)) (i : Nat),
    fr.length = mn + 1 → (∀ x ∈ main, 1 ≤ x ∧ x ≤ mn) →
    (main.foldl (fun (p : List Nat × List (Option Nat)) n =>
        (p.1.set n (p.1.getD n 0 + 1), p.2.set n (some i))) (fr, ls)).1.length =
      mn + 1 ∧
    ((List.range' 1 mn).map fun n =>
        (main.foldl (fun (p : List Nat × List (Option Nat)) n =>
          (p.1.set n (p.1.getD n 0 + 1), p.2.set n (some i))) (fr, ls)).1.getD n 0).sum =
      ((List.range' 1 mn).map fun n => fr.getD n 0).sum + main.length := by
  intro main
  induction main with
  | nil => intro fr ls i hlen _; exact ⟨hlen, rfl⟩
  | cons x main ih =>
    intro fr ls i hlen hx
    have hx1 := hx x (List.mem_cons_self x main)
    have hrest : ∀ y ∈ main, 1 ≤ y ∧ y ≤ mn := fun y hy =>
      hx y (List.mem_cons_of_mem x hy)
    have hxl : x < fr.length := by omega
    simp only [List.foldl_cons]
    have hstep := ih (fr.set x (fr.getD x 0 + 1)) (ls.set x (some i)) i
      (by rw [List.length_set]; exact hlen) hrest
    refine ⟨hstep.1, ?_⟩
    rw [hstep.2, sum_getD_set_incr fr x 1 mn (by omega) (by omega) hxl]
    simp only [List.length_cons]
    omega

/-- The draw loop of `compute_stats`: length of `freq` preserved, windowed
frequency sum grows by `count` per draw, position counter grows by one per
draw. -/
theorem statFold_sum (mn count : Nat) :
    ∀ (ds : List RawDraw) (fr : List Nat) (ls : List (Option Nat)) (i : Nat),
    fr.length = mn + 1 →
    (∀ r ∈ ds, r.main.length = count ∧ ∀ x ∈ r.main, 1 ≤ x ∧ x ≤ mn) →
    (ds.foldl (fun a r => statStepM a r.main) (fr, ls, i)).1.length = mn + 1 ∧
    ((List.range' 1 mn).map fun n =>
        (ds.foldl (fun a r => statStepM a r.main) (fr, ls, i)).1.getD n 0).sum =
      ((List.range' 1 mn).map fun n => fr.getD n 0).sum + ds.length * count ∧
    (ds.foldl (fun a r => statStepM a r.main) (fr, ls, i)).2.2 = i + ds.length := by
  intro ds
  induction ds with
  | nil => intro fr ls i hlen _; exact ⟨hlen, by simp, by simp⟩
  | cons r ds ih =>
    intro fr ls i hlen hrec
    have hr := hrec r (List.mem_cons_self r ds)
    have hrest : ∀ q ∈ ds, q.main.length = count ∧ ∀ x ∈ q.main, 1 ≤ x ∧ x ≤ mn :=
      fun q hq => hrec q (List.mem_cons_of_mem r hq)
    simp only [List.foldl_cons]
    have hone := freqFold_sum mn r.main fr ls (i + 1) hlen hr.2
    have hnext := ih (r.main.foldl (fun (p : List Nat × List (Option Nat)) n =>
        (p.1.set n (p.1.getD n 0 + 1), p.2.set n (some (i + 1)))) (fr, ls)).1
      (r.main.foldl (fun (p : List Nat × List (Option Nat)) n =>
        (p.1.set n (p.1.getD n 0 + 1), p.2.set n (some (i + 1)))) (fr, ls)).2
      (i + 1) hone.1 hrest
    have heq : statStepM (fr, ls, i) r.main =
        ((r.main.foldl (fun (p : List Nat × List (Option Nat)) n =>
          (p.1.set n (p.1.getD n 0 + 1), p.2.set n (some (i + 1)))) (fr, ls)).1,
         (r.main.foldl (fun (p : List Nat × List (Option Nat)) n =>
          (p.1.set n (p.1.getD n 0 + 1), p.2.set n (some (i + 1)))) (fr, ls)).2,
         i + 1) := rfl
    rw [heq]
    refine ⟨hnext.1, ?_, by rw [hnext.2.2]; simp; omega⟩
    rw [hnext.2.1, hone.2, hr.1]
    simp only [List.length_cons]
    ring

/-- The lookback slice only drops leading draws. -/
theorem sliceLookback_subset (lookback : Option Nat) (draws : List RawDraw) :
    ∀ r ∈ sliceLookback lookback draws, r ∈ draws := by
  intro r hr
  cases lookback with
  | none => simpa [sliceLookback] using hr
  | some k =>
    by_cases hk : k = 0
    · simpa [sliceLookback, hk] using hr
    · simp only [sliceLookback, if_neg hk] at hr
      exact List.drop_subset _ draws hr

/-- The windowed sum over the all-zero frequency table vanishes. -/
theorem sum_getD_replicate_zero (mn : Nat) :
    ((List.range' 1 mn).map fun n => (List.replicate (mn + 1) (0 : Nat)).getD n 0).sum
      = 0 := by
  apply List.sum_eq_zero
  intro x hx
  obtain ⟨n, hn, rfl⟩ := List.mem_map.mp hx
  simp only [List.getD_eq_getElem?_getD, List.getElem?_replicate]
  split <;> rfl

/-- C6: for every draw list whose records each carry `count` main numbers,
all in `[1, max_n]`, and every lookback, the snapshot satisfies
`sum(freq[n] for n in 1..max_n) = sample_size * count`, where
`sample_size` counts the draws after the trailing lookback slice. -/
theorem compute_stats_freq_sum (draws : List RawDraw) (mn count : Nat)
    (lookback : Option Nat) (st : Stats)
    (hrec : ∀ r ∈ draws, r.main.length = count ∧ ∀ x ∈ r.main, 1 ≤ x ∧ x ≤ mn)
    (hsome : compute_stats draws mn count lookback = some st) :
    ((List.range' 1 mn).map fun n => st.freq.getD n 0).sum =
      st.sample_size * count := by
  by_cases hemp : draws.isEmpty
  · rw [compute_stats, if_pos hemp] at hsome
    exact absurd hsome (by simp)
  · rw [compute_stats, if_neg hemp] at hsome
    injection hsome with h
    subst h
    have hds : ∀ r ∈ sliceLookback lookback draws,
        r.main.length = count ∧ ∀ x ∈ r.main, 1 ≤ x ∧ x ≤ mn :=
      fun r hr => hrec r (sliceLookback_subset lookback draws r hr)
    have h := statFold_sum mn count (sliceLookback lookback draws)
      (List.replicate (mn + 1) 0) (List.replicate (mn + 1) none) 0
      (by simp) hds
    have hacc :
        statsAcc (sliceLookback lookback draws) mn =
          ((sliceLookback lookback draws).foldl (fun a r => statStepM a r.main)
            (List.replicate (mn + 1) 0, List.replicate (mn + 1) none, 0)) := rfl
    simp only [hacc]
    rw [h.2.1, h.2.2, sum_getD_replicate_zero]
    simp

/-- Witness for C6 at a concrete input: two draws of two numbers over
`1..3` and a lookback of one draw. -/
theorem compute_stats_freq_sum_witness :
    ((List.range' 1 3).map fun n => wit6Stats.freq.getD n 0).sum =
      wit6Stats.sample_size * 2 :=
  compute_stats_freq_sum wit6Draws 3 2 (some 1) wit6Stats (by decide) (by decide)

/-- C9: the statistics engine is insensitive to bonus numbers: two draw
lists that agree on every record's date and main numbers (and hence have
equal length) produce identical snapshots for any `max_n`, `count` and
lookback. -/
theorem compute_stats_bonus_blind (d1 d2 : List RawDraw) (mn count : Nat)
    (lookback : Option Nat)
    (h : d1.map (fun r => (r.date, r.main)) = d2.map (fun r => (r.date, r.main))) :
    compute_stats d1 mn count lookback = compute_stats d2 mn count lookback := by
  have hmain : d1.map (fun r => r.main) = d2.map (fun r => r.main) := by
    have h2 := congrArg (List.map Prod.snd) h
    simpa [List.map_map, Function.comp] using h2
  have hlen : d1.length = d2.length := by
    have h2 := congrArg List.length h
    simpa using h2
  have hempty : d1.isEmpty = d2.isEmpty := by
    cases d1 with
    | nil => cases d2 with
      | nil => rfl
      | cons x xs => simp at hlen
    | cons x xs => cases d2 with
      | nil => simp at hlen
      | cons y ys => rfl
  have hslice : (sliceLookback lookback d1).map (fun r => r.main) =
      (sliceLookback lookback d2).map (fun r => r.main) := by
    cases lookback with
    | none => simpa [sliceLookback] using hmain
    | some k =>
      by_cases hk : k = 0
      · simpa [sliceLookback, hk] using hmain
      · simp only [sliceLookback, if_neg hk]
        rw [List.map_drop, List.map_drop, hlen, hmain]
  have hstats : statsAcc (sliceLookback lookback d1) mn =
      statsAcc (sliceLookback lookback d2) mn := by
    unfold statsAcc
    rw [← List.foldl_map (fun r : RawDraw => r.main) (fun a m => statStepM a m),
      ← List.foldl_map (fun r : RawDraw => r.main) (fun a m => statStepM a m),
      hslice]
  rw [compute_stats, compute_stats, hempty]
  by_cases he : d2.isEmpty
  · rw [if_pos he, if_pos he]
  · rw [if_neg he, if_neg he, hstats]

/-- Witness for C9 at concrete inputs: two lists that differ only in the
bonus components yield the same snapshot. -/
theorem compute_stats_bonus_blind_witness :
    compute_stats wit9a 2 2 none = compute_stats wit9b 2 2 none :=
  compute_stats_bonus_blind wit9a wit9b 2 2 none (by decide)

/-- C1: the print-layout parser on the scenario page text
`"Saturday January 4, 2025 01 05 12 23 34 47 09"` with `max_n = 49`,
`count = 6`.  The spec expects one record with date `"2025-01-04"`, main
numbers `[1, 5, 12, 23, 34, 47]` and bonus `9`; the code instead emits the
record with date `none` (its extracted substring `"January 4, 2025"` fails
every `DATE_PATTERNS` entry once `try_parse_date` strips the commas), with
the day-of-month `4` counted as the first main number, and with bonus
`47`. -/
theorem parse_wclc_print_scenario :
    parse_wclc_print txtC1 49 6 = [⟨none, [4, 1, 5, 12, 23, 34], some 47⟩] ∧
    parse_wclc_print txtC1 49 6 ≠
      [⟨some "2025-01-04", [1, 5, 12, 23, 34, 47], some 9⟩] := by
  constructor
  · decide
  · decide

/-- Only the comma lowercases to a comma. -/
theorem toLower_eq_comma {c : Char} (h : c.toLower = ',') : c = ',' := by
  have h1 : (if c.toNat >= 65 ∧ c.toNat <= 90 then Char.ofNat (c.toNat + 32) else c)
      = ',' := h
  by_cases hcond : c.toNat >= 65 ∧ c.toNat <= 90
  · exfalso
    rw [if_pos hcond] at h1
    have hvalid : (c.toNat + 32).isValidChar := Or.inl (by omega)
    rw [Char.ofNat, dif_pos hvalid] at h1
    have h2 := congrArg Char.toNat h1
    have h3 : (Char.ofNatAux (c.toNat + 32) hvalid).toNat = c.toNat + 32 := by
      simp [Char.ofNatAux, Char.toNat, UInt32.toNat, BitVec.toNat_ofNatLt]
    rw [h3] at h2
    have h4 : (',').toNat = 44 := rfl
    omega
  · rw [if_neg hcond] at h1
    exact h1

/-- `ciEq c ','` forces `c = ','`. -/
theorem ciEq_comma {c : Char} (h : ciEq c ',' = true) : c = ',' := by
  unfold ciEq at h
  have h2 : c.toLower = (',').toLower := by simpa using h
  exact toLower_eq_comma (by simpa using h2)

/-- `re.sub(",", "", text)` leaves no comma. -/
theorem removeCommas_no_comma (s : List Char) : (',') ∉ removeCommas s := by
  intro h
  have h2 := List.of_mem_filter h
  simp at h2

/-- Stripping whitespace only removes characters. -/
theorem stripWS_subset (s : List Char) : stripWS s ⊆ s := by
  intro c hc
  unfold stripWS at hc
  rw [List.mem_reverse] at hc
  have h1 := (List.dropWhile_sublist isSpaceCh).subset hc
  rw [List.mem_reverse] at h1
  exact (List.dropWhile_sublist isSpaceCh).subset h1

/-- A successful `findName` leaves a suffix of the input. -/
theorem findName_drop (names : List (List Char × Nat)) (s : List Char)
    (r : Nat × List Char) (h : findName names s = some r) :
    ∃ k, r.2 = List.drop k s := by
  induction names with
  | nil => exact absurd h (by simp [findName])
  | cons nv names ih =>
    rw [findName, List.findSome?_cons] at h
    by_cases hp : ciPref nv.1 s
    · rw [if_pos hp] at h
      injection h with h
      exact ⟨nv.1.length, by rw [← h]⟩
    · rw [if_neg hp] at h
      exact ih h

/-- A format containing a literal comma only matches inputs containing a
comma. -/
theorem matchToks_comma : ∀ (fmt : List FTok) (s : List Char) (acc p : PDate),
    FTok.lit ',' ∈ fmt → matchToks fmt s acc = some p → (',') ∈ s := by
  intro fmt
  induction fmt with
  | nil => intro s acc p hf _; simp at hf
  | cons tok fmt ih =>
    intro s acc p hf h
    rcases List.mem_cons.mp hf with heq | htail
    · cases tok with
      | lit ch =>
        injection heq.symm with hch
        subst hch
        cases s with
        | nil => simp [matchToks] at h
        | cons c rest =>
          rw [matchToks] at h
          by_cases hci : ciEq c ','
          · rw [ciEq_comma hci]
            exact List.mem_cons_self _ _
          · rw [if_neg hci] at h
            exact absurd h (by simp)
      | pA => simp at heq
      | pB => simp at heq
      | pd => simp at heq
      | pY => simp at heq
      | ws => simp at heq
    · cases tok with
      | pA =>
        rw [matchToks] at h
        cases hfn : findName WEEKDAYS_A s with
        | none => rw [hfn] at h; exact absurd h (by simp)
        | some wr =>
          rw [hfn] at h
          obtain ⟨k, hk⟩ := findName_drop _ _ _ hfn
          have := ih wr.2 acc p htail h
          rw [hk] at this
          exact List.mem_of_mem_drop this
      | pB =>
        rw [matchToks] at h
        cases hfn : findName MONTHS_B s with
        | none => rw [hfn] at h; exact absurd h (by simp)
        | some mr =>
          rw [hfn] at h
          obtain ⟨k, hk⟩ := findName_drop _ _ _ hfn
          have := ih mr.2 _ p htail h
          rw [hk] at this
          exact List.mem_of_mem_drop this
      | pd =>
        cases s with
        | nil => simp [matchToks] at h
        | cons c1 rest1 =>
          cases rest1 with
          | nil =>
            rw [matchToks] at h
            cases hd1 : dayVal1 c1 with
            | none => simp [hd1] at h
            | some v =>
              simp only [hd1] at h
              have := ih [] _ p htail h
              simp at this
          | cons c2 rest =>
            rw [matchToks] at h
            cases hd2 : dayVal2 c1 c2 with
            | some v =>
              simp only [hd2] at h
              cases hinner : matchToks fmt rest { acc with day := v } with
              | some q =>
                simp only [hinner, Option.orElse, Option.some.injEq] at h
                subst h
                exact List.mem_cons_of_mem _ (List.mem_cons_of_mem _
                  (ih rest _ q htail hinner))
              | none =>
                simp only [hinner, Option.orElse] at h
                cases hd1 : dayVal1 c1 with
                | none => simp [hd1] at h
                | some v1 =>
                  simp only [hd1] at h
                  exact List.mem_cons_of_mem _ (ih (c2 :: rest) _ p htail h)
            | none =>
              simp only [hd2, Option.orElse] at h
              cases hd1 : dayVal1 c1 with
              | none => simp [hd1] at h
              | some v1 =>
                simp only [hd1] at h
                exact List.mem_cons_of_mem _ (ih (c2 :: rest) _ p htail h)
      | pY =>
        cases s with
        | nil => simp [matchToks] at h
        | cons c1 rest1 =>
          cases rest1 with
          | nil => simp [matchToks] at h
          | cons c2 rest2 =>
            cases rest2 with
            | nil => simp [matchToks] at h
            | cons c3 rest3 =>
              cases rest3 with
              | nil => simp [matchToks] at h
              | cons c4 rest =>
                rw [matchToks] at h
                by_cases hd : (isDigitCh c1 && isDigitCh c2 && isDigitCh c3 &&
                    isDigitCh c4) = true
                · rw [if_pos hd] at h
                  have := ih rest _ p htail h
                  exact List.mem_cons_of_mem _ (List.mem_cons_of_mem _
                    (List.mem_cons_of_mem _ (List.mem_cons_of_mem _ this)))
                · rw [if_neg hd] at h
                  exact absurd h (by simp)
      | lit ch =>
        cases s with
        | nil => simp [matchToks] at h
        | cons c rest =>
          rw [matchToks] at h
          by_cases hci : ciEq c ch
          · rw [if_pos hci] at h
            have := ih rest _ p htail h
            exact List.mem_cons_of_mem _ this
          · rw [if_neg hci] at h
            exact absurd h (by simp)
      | ws =>
        rw [matchToks] at h
        by_cases hsp : (s.takeWhile isSpaceCh).isEmpty
        · rw [if_pos hsp] at h
          exact absurd h (by simp)
        · rw [if_neg hsp] at h
          have := ih (s.dropWhile isSpaceCh) _ p htail h
          exact (List.dropWhile_sublist isSpaceCh).subset this

/-- On comma-free input (every `try_parse_date` input, after its
`re.sub`), the second and third formats can never match, so
`try_parse_date` reduces to the first format. -/
theorem try_parse_date_chars_eq (s : List Char) :
    try_parse_date_chars s =
      (matchToks FMT1 (stripWS (removeCommas s)) ⟨1, 1, 1900⟩).bind
        fun p => if validDate p then some (isoOf p) else none := by
  have hc : (',') ∉ stripWS (removeCommas s) := fun h =>
    removeCommas_no_comma s (stripWS_subset _ h)
  have h2 : matchToks FMT2 (stripWS (removeCommas s)) ⟨1, 1, 1900⟩ = none := by
    cases hm : matchToks FMT2 (stripWS (removeCommas s)) ⟨1, 1, 1900⟩ with
    | none => rfl
    | some p => exact absurd (matchToks_comma FMT2 _ _ p (by decide) hm) hc
  have h3 : matchToks FMT3 (stripWS (removeCommas s)) ⟨1, 1, 1900⟩ = none := by
    cases hm : matchToks FMT3 (stripWS (removeCommas s)) ⟨1, 1, 1900⟩ with
    | none => rfl
    | some p => exact absurd (matchToks_comma FMT3 _ _ p (by decide) hm) hc
  rw [try_parse_date_chars]
  cases hm1 : matchToks FMT1 (stripWS (removeCommas s)) ⟨1, 1, 1900⟩ with
  | some p =>
    by_cases hv : validDate p
    · simp [DATE_PATTERNS, List.findSome?_cons, hm1, h2, h3, hv]
    · simp [DATE_PATTERNS, List.findSome?_cons, hm1, h2, h3, hv]
  | none =>
    simp [DATE_PATTERNS, List.findSome?_cons, hm1, h2, h3]

/-- `ciEq` is symmetric. -/
theorem ciEq_symm {a b : Char} (h : ciEq a b = true) : ciEq b a = true := by
  unfold ciEq at h ⊢
  have h2 : a.toLower = b.toLower := by simpa using h
  simp [h2]

/-- A case-insensitive prefix of a concatenation is comparable with the
first part. -/
theorem ciPref_append : ∀ (w m r : List Char), ciPref w (m ++ r) = true →
    ciPref w m = true ∨ ciPref m w = true := by
  intro w
  induction w with
  | nil => intro m r _; left; rfl
  | cons a as ih =>
    intro m r h
    cases m with
    | nil => right; rfl
    | cons b bs =>
      rw [List.cons_append] at h
      unfold ciPref at h
      rw [Bool.and_eq_true] at h
      rcases ih bs r h.2 with h1 | h2
      · left
        unfold ciPref
        rw [Bool.and_eq_true]
        exact ⟨h.1, h1⟩
      · right
        unfold ciPref
        rw [Bool.and_eq_true]
        exact ⟨ciEq_symm h.1, h2⟩

/-- No weekday name is case-insensitively compatible with a month name in
either direction. -/
theorem weekday_month_incompatible :
    ∀ w ∈ WEEKDAYS_A, ∀ m ∈ MONTHS_RE,
      ciPref w.1 m = false ∧ ciPref m w.1 = false := by
  decide

/-- `findName` fails when no name is a case-insensitive prefix. -/
theorem findName_none (names : List (List Char × Nat)) (s : List Char)
    (h : ∀ nv ∈ names, ciPref nv.1 s = false) : findName names s = none := by
  induction names with
  | nil => rfl
  | cons nv names ih =>
    rw [findName, List.findSome?_cons]
    rw [h nv (List.mem_cons_self nv names)]
    simp only [Bool.false_eq_true, if_false]
    exact ih fun x hx => h x (List.mem_cons_of_mem nv hx)

/-- `"%A %B %d %Y"` cannot match a string that begins with a month name:
`%A` finds no weekday there. -/
theorem matchToks_fmt1_month (m rest : List Char) (hm : m ∈ MONTHS_RE)
    (acc : PDate) : matchToks FMT1 (m ++ rest) acc = none := by
  have hfn : findName WEEKDAYS_A (m ++ rest) = none := by
    apply findName_none
    intro nv hnv
    by_contra hp
    have hp2 : ciPref nv.1 (m ++ rest) = true := by
      cases hpc : ciPref nv.1 (m ++ rest) with
      | false => exact absurd hpc hp
      | true => rfl
    have hw := weekday_month_incompatible nv hnv m hm
    rcases ciPref_append nv.1 m rest hp2 with h1 | h2
    · rw [hw.1] at h1; cases h1
    · rw [hw.2] at h2; cases h2
  rw [FMT1, matchToks, hfn]

/-- A list equal to `[]` is `isEmpty`. -/
theorem isEmpty_of_eq_nil {l : List Char} (h : l = []) : l.isEmpty = true := by
  rw [h]; rfl

/-- Shape facts about a successful date-regex match: both whitespace
groups are nonempty whitespace, the day and year groups are nonempty
digits, the year has four digits. -/
theorem matchAfterMonth_spec (s : List Char) (d : DM)
    (h : matchAfterMonth s = some d) :
    d.ws1 ≠ [] ∧ (∀ c ∈ d.ws1, isSpaceCh c = true) ∧
    d.day ≠ [] ∧ (∀ c ∈ d.day, isDigitCh c = true) ∧
    d.ws2 ≠ [] ∧ (∀ c ∈ d.ws2, isSpaceCh c = true) ∧
    d.year.length = 4 ∧ (∀ c ∈ d.year, isDigitCh c = true) := by
  rw [matchAfterMonth] at h
  simp only [] at h
  split at h
  · cases h
  · split at h
    · cases h
    · split at h
      · cases h
      · split at h
        · rename_i hws1 hds hws2 hyr
          injection h with h
          subst h
          rw [Bool.and_eq_true, beq_iff_eq] at hyr
          have hds1 : (List.takeWhile isDigitCh (List.dropWhile isSpaceCh s)).isEmpty
              ≠ true := fun he => hds (by rw [Bool.or_eq_true]; exact Or.inl he)
          refine ⟨?_, ?_, ?_, ?_, ?_, ?_, hyr.1, ?_⟩
          · exact fun he => hws1 (isEmpty_of_eq_nil he)
          · exact fun c hc => List.mem_takeWhile_imp hc
          · exact fun he => hds1 (isEmpty_of_eq_nil he)
          · exact fun c hc => List.mem_takeWhile_imp hc
          · exact fun he => hws2 (isEmpty_of_eq_nil he)
          · exact fun c hc => List.mem_takeWhile_imp hc
          · intro c hc
            have h2 := hyr.2
            rw [List.all_eq_true] at h2
            exact h2 c hc
        · cases h

/-- A successful search comes from a successful match at some position. -/
theorem searchMonthDate_spec (month : List Char) :
    ∀ (s : List Char) (d : DM), searchMonthDate month s = some d →
    ∃ s2, matchAfterMonth s2 = some d := by
  intro s
  induction s with
  | nil => intro d h; cases h
  | cons c cs ih =>
    intro d h
    rw [searchMonthDate] at h
    by_cases hp : month.isPrefixOf (c :: cs)
    · rw [if_pos hp] at h
      cases hmm : matchAfterMonth ((c :: cs).drop month.length) with
      | some d2 =>
        rw [hmm] at h
        injection h with h
        exact ⟨(c :: cs).drop month.length, by rw [hmm, h]⟩
      | none =>
        rw [hmm] at h
        exact ih d h
    · rw [if_neg hp] at h
      exact ih d h

/-- Whitespace characters are not commas. -/
theorem space_ne_comma {c : Char} (h : isSpaceCh c = true) : ¬(c = ',') :=
  fun e => by subst e; exact absurd h (by decide)

/-- Digit characters are not commas. -/
theorem digit_ne_comma {c : Char} (h : isDigitCh c = true) : ¬(c = ',') :=
  fun e => by subst e; exact absurd h (by decide)

/-- Digit characters are not whitespace. -/
theorem digit_not_space {c : Char} (h : isDigitCh c = true) :
    isSpaceCh c = false := by
  cases hs : isSpaceCh c with
  | false => rfl
  | true =>
    exfalso
    have h2 : ((c = ' ' ∨ c = '\t') ∨ c = '\r') ∨ c = '\n' := by
      simpa [isSpaceCh, Char.isWhitespace] using hs
    rcases h2 with ((rfl | rfl) | rfl) | rfl <;> exact absurd h (by decide)

/-- No month name contains a comma. -/
theorem months_no_comma : ∀ m ∈ MONTHS_RE, (',') ∉ m := by decide

/-- Every month name is nonempty and starts with a non-whitespace
character. -/
theorem months_head : ∀ m ∈ MONTHS_RE, m ≠ [] ∧ isSpaceCh (m.headD ' ') = false := by
  decide

/-- `dropWhile` is the identity when the head falsifies the predicate. -/
theorem dropWhile_eq_self_of_head_false (p : Char → Bool) (l : List Char)
    (hne : l ≠ []) (hh : p (l.headD ' ') = false) : l.dropWhile p = l := by
  cases l with
  | nil => rfl
  | cons c cs =>
    rw [List.dropWhile_cons, if_neg]
    simp only [List.headD_cons] at hh
    rw [hh]
    simp

/-- A nonempty list reverses to a cons whose head is a member. -/
theorem reverse_ne_nil_structure (l : List Char) (hne : l ≠ []) :
    ∃ y ys, l.reverse = y :: ys ∧ y ∈ l := by
  cases hrev : l.reverse with
  | nil => exact absurd (by simpa using congrArg List.reverse hrev) hne
  | cons y ys =>
    refine ⟨y, ys, rfl, ?_⟩
    rw [← List.mem_reverse, hrev]
    exact List.mem_cons_self y ys

/-- Comma removal on a reassembled date match: the optional comma
disappears, everything else stays. -/
theorem removeCommas_dmText (month : List Char) (d : DM)
    (hmonth : (',') ∉ month)
    (hws1 : ∀ c ∈ d.ws1, isSpaceCh c = true)
    (hday : ∀ c ∈ d.day, isDigitCh c = true)
    (hws2 : ∀ c ∈ d.ws2, isSpaceCh c = true)
    (hyear : ∀ c ∈ d.year, isDigitCh c = true) :
    removeCommas (dmText month d) =
      (((month ++ d.ws1) ++ d.day) ++ d.ws2) ++ d.year := by
  unfold removeCommas dmText
  simp only [List.filter_append]
  have hm : month.filter (fun c => !(c == ',')) = month :=
    List.filter_eq_self.mpr fun c hc => by
      have hne : ¬(c = ',') := fun e => hmonth (by rw [← e]; exact hc)
      simp [hne]
  have h1 : d.ws1.filter (fun c => !(c == ',')) = d.ws1 :=
    List.filter_eq_self.mpr fun c hc => by simp [space_ne_comma (hws1 c hc)]
  have h2 : d.day.filter (fun c => !(c == ',')) = d.day :=
    List.filter_eq_self.mpr fun c hc => by simp [digit_ne_comma (hday c hc)]
  have h3 : d.ws2.filter (fun c => !(c == ',')) = d.ws2 :=
    List.filter_eq_self.mpr fun c hc => by simp [space_ne_comma (hws2 c hc)]
  have h4 : d.year.filter (fun c => !(c == ',')) = d.year :=
    List.filter_eq_self.mpr fun c hc => by simp [digit_ne_comma (hyear c hc)]
  have h5 : (if d.comma then [','] else []).filter (fun c => !(c == ',')) = [] := by
    cases d.comma <;> simp
  rw [hm, h1, h2, h3, h4, h5, List.append_nil]

/-- `strip()` is the identity when both ends are non-whitespace. -/
theorem stripWS_eq_self_generic (L : List Char) (c : Char) (cs : List Char)
    (hc : L = c :: cs) (hcf : isSpaceCh c = false) (y : Char) (ys : List Char)
    (hy : L.reverse = y :: ys) (hyf : isSpaceCh y = false) : stripWS L = L := by
  unfold stripWS
  rw [hc, List.dropWhile_cons, if_neg (by rw [hcf]; simp), ← hc]
  rw [hy, List.dropWhile_cons, if_neg (by rw [hyf]; simp), ← hy,
    List.reverse_reverse]

/-- The reassembled text of a successful date-regex match never parses:
after comma removal it is `<month><sp><day><sp><year>`, which starts with
a month name where `"%A %B %d %Y"` requires a weekday, and the other two
formats require a comma. -/
theorem try_parse_dmText_none (month : List Char) (hm : month ∈ MONTHS_RE)
    (s2 : List Char) (d : DM) (h : matchAfterMonth s2 = some d) :
    try_parse_date_chars (dmText month d) = none := by
  obtain ⟨hw1ne, hw1, hdne, hday, hw2ne, hw2, hylen, hyear⟩ :=
    matchAfterMonth_spec s2 d h
  rw [try_parse_date_chars_eq]
  rw [removeCommas_dmText month d (months_no_comma month hm) hw1 hday hw2 hyear]
  have hmhead := months_head month hm
  obtain ⟨mc, mrest, hmonth_eq⟩ : ∃ c cs, month = c :: cs := by
    cases month with
    | nil => exact absurd rfl hmhead.1
    | cons c cs => exact ⟨c, cs, rfl⟩
  have hcf : isSpaceCh mc = false := by
    have h2 := hmhead.2
    rw [hmonth_eq] at h2
    simpa using h2
  have hyne : d.year ≠ [] := by
    intro he
    rw [he] at hylen
    simp at hylen
  obtain ⟨y, ys, hyrev, hymem⟩ := reverse_ne_nil_structure d.year hyne
  have hL : stripWS ((((month ++ d.ws1) ++ d.day) ++ d.ws2) ++ d.year) =
      (((month ++ d.ws1) ++ d.day) ++ d.ws2) ++ d.year := by
    refine stripWS_eq_self_generic _ mc ((((mrest ++ d.ws1) ++ d.day) ++ d.ws2) ++ d.year)
      ?_ hcf y (ys ++ ((((month ++ d.ws1) ++ d.day) ++ d.ws2)).reverse) ?_
      (digit_not_space (hyear y hymem))
    · rw [hmonth_eq]
      rfl
    · rw [List.reverse_append, hyrev]
      rfl
  rw [hL]
  have hassoc : (((month ++ d.ws1) ++ d.day) ++ d.ws2) ++ d.year =
      month ++ (d.ws1 ++ (d.day ++ (d.ws2 ++ d.year))) := by
    simp [List.append_assoc]
  rw [hassoc, matchToks_fmt1_month month _ hm]
  rfl

/-- Every record a block of `parse_wclc_print` contributes has date
`none`. -/
theorem wclcBlock_date_none (mn c : Nat) (month rest : List Char)
    (hm : month ∈ MONTHS_RE) (r : RawDraw)
    (h : wclcBlock mn c month rest = some r) : r.date = none := by
  unfold wclcBlock at h
  cases hs : searchMonthDate month (month ++ rest) with
  | none => rw [hs] at h; cases h
  | some d =>
    simp only [hs] at h
    obtain ⟨s2, hs2⟩ := searchMonthDate_spec month (month ++ rest) d hs
    split at h
    · injection h with h
      subst h
      exact try_parse_dmText_none month hm s2 d hs2
    · cases h

/-- The scanner for `re.split` never returns an empty list. -/
theorem splitMonthsGo_ne_nil : ∀ (s : List Char) (skip : Nat) (acc : List Char),
    splitMonthsGo skip acc s ≠ [] := by
  intro s
  induction s with
  | nil => intro skip acc; simp [splitMonthsGo]
  | cons c cs ih =>
    intro skip acc
    cases skip with
    | succ k => exact ih k acc
    | zero =>
      cases hm : monthAt (c :: cs) with
      | some m => simp [splitMonthsGo, hm]
      | none =>
        have h2 := ih 0 (c :: acc)
        simpa [splitMonthsGo, hm] using h2

/-- Every month name paired up by `monthBlocks` over the split parts is a
name of the `month_re` alternation. -/
theorem splitMonthsGo_blocks : ∀ (s : List Char) (skip : Nat) (acc : List Char),
    ∀ mr ∈ monthBlocks (splitMonthsGo skip acc s), mr.1 ∈ MONTHS_RE := by
  intro s
  induction s with
  | nil =>
    intro skip acc mr hmr
    simp [splitMonthsGo, monthBlocks, pairBlocks] at hmr
  | cons c cs ih =>
    intro skip acc mr hmr
    cases skip with
    | succ k => exact ih k acc mr hmr
    | zero =>
      cases hm : monthAt (c :: cs) with
      | none =>
        simp only [splitMonthsGo, hm] at hmr
        exact ih 0 (c :: acc) mr hmr
      | some m =>
        simp only [splitMonthsGo, hm] at hmr
        obtain ⟨y, ys, hL⟩ : ∃ y ys, splitMonthsGo (m.length - 1) [] cs = y :: ys := by
          cases hsg : splitMonthsGo (m.length - 1) [] cs with
          | nil => exact absurd hsg (splitMonthsGo_ne_nil cs _ _)
          | cons y ys => exact ⟨y, ys, rfl⟩
        rw [hL] at hmr
        simp only [monthBlocks, pairBlocks] at hmr
        rcases List.mem_cons.mp hmr with heq | htail
        · rw [heq]
          exact List.mem_of_find?_eq_some hm
        · have h2 := ih (m.length - 1) [] mr
          rw [hL] at h2
          exact h2 (by simpa [monthBlocks] using htail)

/-- The date of a deduplicated record is a date of the input list. -/
theorem dedupe_date_mem (l : List RawDraw) (r : RawDraw)
    (h : r ∈ dedupe_by_date l) : r.date ∈ l.map fun q => q.date := by
  unfold dedupe_by_date at h
  obtain ⟨k, hk, hr⟩ := List.mem_filterMap.mp h
  obtain ⟨q, hq, hq2⟩ := Option.map_eq_some'.mp hr
  have hdate : r.date = k := by rw [← hq2]
  rw [hdate]
  have hk2 : k ∈ ((l.map fun q => q.date).dedup) :=
    (List.mem_insertionSort keyLe).mp hk
  exact List.mem_dedup.mp hk2

/-- C2: contrary to the spec, date normalization never succeeds inside
`parse_wclc_print` — the date substring it extracts has no weekday, and
comma stripping defeats the remaining formats — yet the record is emitted
anyway: every record of `parse_wclc_print`, on every input and parameters,
carries date `none` instead of a valid normalized date. -/
theorem parse_wclc_print_date_none (text : String) (mn c : Nat) :
    ∀ r ∈ parse_wclc_print text mn c, r.date = none := by
  intro r hr
  unfold parse_wclc_print at hr
  have hd := dedupe_date_mem _ r hr
  obtain ⟨q, hq, hdate⟩ := List.mem_map.mp hd
  obtain ⟨mr, hmr, hq2⟩ := List.mem_filterMap.mp hq
  have hmon : mr.1 ∈ MONTHS_RE := splitMonthsGo_blocks text.toList 0 [] mr hmr
  rw [← hdate]
  exact wclcBlock_date_none mn c mr.1 mr.2 hmon q hq2

/-- Witness for C2: the record the parser emits on the scenario text does
carry date `none`. -/
theorem parse_wclc_print_date_none_witness :
    (⟨none, [4, 1, 5, 12, 23, 34], some 47⟩ : RawDraw).date = none :=
  parse_wclc_print_date_none txtC1 49 6
    ⟨none, [4, 1, 5, 12, 23, 34], some 47⟩ (by decide)

/-- Numbers extracted by the findall model are within `[1, max_n]`. -/
theorem numsInChars_range (mn : Nat) (t : List Char) :
    ∀ v ∈ numsInChars mn t, 1 ≤ v ∧ v ≤ mn := by
  intro v hv
  have h2 := List.of_mem_filter hv
  rw [Bool.and_eq_true, decide_eq_true_eq, decide_eq_true_eq] at h2
  exact h2

/-- The `seen`/`cleaned` loop yields a duplicate-free sublist avoiding
`seen`. -/
theorem cleanDups_spec : ∀ (l seen : List Nat),
    (cleanDups seen l).Nodup ∧ ∀ x ∈ cleanDups seen l, x ∉ seen ∧ x ∈ l := by
  intro l
  induction l with
  | nil => intro seen; rw [cleanDups]; exact ⟨List.nodup_nil, by simp⟩
  | cons v vs ih =>
    intro seen
    rw [cleanDups]
    by_cases hmem : v ∈ seen
    · rw [if_pos hmem]
      refine ⟨(ih seen).1, fun x hx => ?_⟩
      have h2 := (ih seen).2 x hx
      exact ⟨h2.1, List.mem_cons_of_mem v h2.2⟩
    · rw [if_neg hmem]
      constructor
      · rw [List.nodup_cons]
        refine ⟨fun hvin => ?_, (ih (v :: seen)).1⟩
        have h2 := (ih (v :: seen)).2 v hvin
        exact h2.1 (List.mem_cons_self v seen)
      · intro x hx
        rcases List.mem_cons.mp hx with rfl | htail
        · exact ⟨hmem, List.mem_cons_self x vs⟩
        · have h2 := (ih (v :: seen)).2 x htail
          exact ⟨fun hs => h2.1 (List.mem_cons_of_mem v hs),
            List.mem_cons_of_mem v h2.2⟩

/-- A deduplicated record takes its payload from some input record. -/
theorem dedupe_payload_mem (l : List RawDraw) (r : RawDraw)
    (h : r ∈ dedupe_by_date l) :
    ∃ q ∈ l, r.main = q.main ∧ r.bonus = q.bonus := by
  unfold dedupe_by_date at h
  obtain ⟨k, hk, hr⟩ := List.mem_filterMap.mp h
  obtain ⟨q, hq, hq2⟩ := Option.map_eq_some'.mp hr
  have hql : q ∈ l :=
    List.mem_of_mem_filter (List.mem_of_getLast?_eq_some hq)
  exact ⟨q, hql, by rw [← hq2], by rw [← hq2]⟩

/-- Invariants of one `parse_generic_tables` row: `count` main numbers,
all in range, no duplicates. -/
theorem genericRow_invariant (mn c : Nat) (cells : List String) (r : RawDraw)
    (h : genericRow mn c cells = some r) :
    r.main.length = c ∧ (∀ x ∈ r.main, 1 ≤ x ∧ x ≤ mn) ∧ r.main.Nodup := by
  unfold genericRow at h
  split at h
  · cases h
  · cases hfs : cells.findSome? (fun cell => try_parse_date cell) with
    | none => rw [hfs] at h; cases h
    | some date_iso =>
      simp only [hfs] at h
      split at h
      · rename_i hlen
        injection h with h
        subst h
        have hclean := cleanDups_spec (cells.flatMap fun cell => numsInChars mn cell.toList) []
        refine ⟨?_, ?_, ?_⟩
        · rw [List.length_take]
          omega
        · intro x hx
          have hx2 : x ∈ cleanDups []
              (cells.flatMap fun cell => numsInChars mn cell.toList) :=
            List.take_subset c _ hx
          have hx3 := (hclean.2 x hx2).2
          obtain ⟨cell, hcell, hxn⟩ := List.mem_flatMap.mp hx3
          exact numsInChars_range mn cell.toList x hxn
        · exact (List.take_sublist c _).nodup hclean.1
      · cases h

/-- Length and range invariants of one `parse_wclc_print` block (its main
numbers are not deduplicated, so `Nodup` is absent). -/
theorem wclcBlock_invariant (mn c : Nat) (month rest : List Char) (r : RawDraw)
    (h : wclcBlock mn c month rest = some r) :
    r.main.length = c ∧ ∀ x ∈ r.main, 1 ≤ x ∧ x ≤ mn := by
  unfold wclcBlock at h
  cases hs : searchMonthDate month (month ++ rest) with
  | none => rw [hs] at h; cases h
  | some d =>
    simp only [hs] at h
    split at h
    · rename_i hlen
      injection h with h
      subst h
      constructor
      · rw [List.length_take]
        omega
      · intro x hx
        exact numsInChars_range mn (month ++ rest) x (List.take_subset c _ hx)
    · cases h

/-- C3 (amended): every record of the generic-table parser satisfies the
full data-model invariant (exactly `count` main numbers, each in
`[1, max_n]`, no duplicates); every record of the print-layout parser
satisfies the length and range parts, but its main numbers may contain
duplicates (no within-block dedup happens there). -/
theorem parser_main_invariant (tables : List (List (List String)))
    (text : String) (mn c : Nat) (h1 : 1 ≤ c) (h2 : c < mn) :
    (∀ r ∈ parse_generic_tables tables mn c,
      r.main.length = c ∧ (∀ x ∈ r.main, 1 ≤ x ∧ x ≤ mn) ∧ r.main.Nodup) ∧
    (∀ r ∈ parse_wclc_print text mn c,
      r.main.length = c ∧ ∀ x ∈ r.main, 1 ≤ x ∧ x ≤ mn) := by
  constructor
  · intro r hr
    unfold parse_generic_tables at hr
    obtain ⟨q, hql, hmain, hbonus⟩ := dedupe_payload_mem _ r hr
    obtain ⟨rows, _hrows, hq⟩ := List.mem_flatMap.mp hql
    obtain ⟨cells, _hcells, hrow⟩ := List.mem_filterMap.mp hq
    have hinv := genericRow_invariant mn c cells q hrow
    rw [hmain]
    exact hinv
  · intro r hr
    unfold parse_wclc_print at hr
    obtain ⟨q, hql, hmain, hbonus⟩ := dedupe_payload_mem _ r hr
    obtain ⟨mr, _hmr, hq⟩ := List.mem_filterMap.mp hql
    have hinv := wclcBlock_invariant mn c mr.1 mr.2 q hq
    rw [hmain]
    exact hinv

/-- Counterexample for C3 as stated: on a block with a repeated in-range
number, the print-layout parser emits a record whose main numbers contain
a duplicate. -/
theorem parser_main_invariant_counterexample :
    parse_wclc_print txtDup 49 6 = [⟨none, [4, 5, 5, 12, 23, 34], some 47⟩] ∧
    ¬ ([4, 5, 5, 12, 23, 34] : List Nat).Nodup := by
  constructor
  · decide
  · decide

/-- Witness for C3 (amended) at concrete inputs: a generic-table record
satisfying the full invariant and a print-layout record satisfying length
and range. -/
theorem parser_main_invariant_witness :
    ((⟨some "2025-01-04", [4, 1, 5, 12, 23, 34], some 47⟩ : RawDraw).main.length = 6 ∧
      (∀ x ∈ (⟨some "2025-01-04", [4, 1, 5, 12, 23, 34], some 47⟩ : RawDraw).main,
        1 ≤ x ∧ x ≤ 49) ∧
      (⟨some "2025-01-04", [4, 1, 5, 12, 23, 34], some 47⟩ : RawDraw).main.Nodup) ∧
    ((⟨none, [4, 1, 5, 12, 23, 34], some 47⟩ : RawDraw).main.length = 6 ∧
      ∀ x ∈ (⟨none, [4, 1, 5, 12, 23, 34], some 47⟩ : RawDraw).main,
        1 ≤ x ∧ x ≤ 49) :=
  ⟨(parser_main_invariant
      [[["Saturday, January 4, 2025", "01 05 12 23 34 47 09"]]] txtC1 49 6
      (by decide) (by decide)).1 _ (by decide),
   (parser_main_invariant
      [[["Saturday, January 4, 2025", "01 05 12 23 34 47 09"]]] txtC1 49 6
      (by decide) (by decide)).2 _ (by decide)⟩

/-- Dict assignment appends when the key is new. -/
theorem dictUpsert_fresh (d : List (Nat × Nat)) (k v : Nat)
    (h : ∀ q ∈ d, q.1 ≠ k) : dictUpsert d k v = d ++ [(k, v)] := by
  unfold dictUpsert
  rw [if_neg]
  intro hc
  obtain ⟨p, hp, hpk⟩ := List.any_eq_true.mp hc
  exact h p hp (by simpa using hpk)

/-- Building the rank dict over distinct keys just collects
`(key, index + 1)` pairs in order. -/
theorem rankDictAux (l : List (Nat × Nat)) : ∀ (j : Nat) (acc : List (Nat × Nat)),
    (∀ p ∈ l, ∀ q ∈ acc, q.1 ≠ p.1) → (l.map Prod.fst).Nodup →
    (List.enumFrom j l).foldl (fun d p => dictUpsert d p.2.1 (p.1 + 1)) acc =
      acc ++ ((List.enumFrom j l).map fun p => (p.2.1, p.1 + 1)) := by
  induction l with
  | nil => intro j acc _ _; simp
  | cons x l ih =>
    intro j acc hfresh hnodup
    rw [List.enumFrom_cons]
    simp only [List.foldl_cons, List.map_cons]
    rw [dictUpsert_fresh acc x.1 (j + 1)
      (fun q hq => hfresh x (List.mem_cons_self x l) q hq)]
    rw [List.map_cons, List.nodup_cons] at hnodup
    rw [ih (j + 1) (acc ++ [(x.1, j + 1)]) ?_ hnodup.2]
    · rw [List.append_assoc]
      rfl
    · intro p hp q hq
      rcases List.mem_append.mp hq with hin | hone
      · exact hfresh p (List.mem_cons_of_mem x hp) q hin
      · have hq1 : q.1 = x.1 := by
          rcases List.mem_singleton.mp hone with rfl
          rfl
        rw [hq1]
        exact fun e => hnodup.1 (e ▸ List.mem_map_of_mem Prod.fst hp)

/-- The rank dict over distinct keys, explicitly. -/
theorem rankDict_eq (l : List (Nat × Nat)) (h : (l.map Prod.fst).Nodup) :
    rankDict l = l.enum.map fun p => (p.2.1, p.1 + 1) := by
  unfold rankDict
  have h2 := rankDictAux l 0 [] (by simp) h
  simpa [List.enum] using h2

/-- The rank dict over distinct keys covers every pair once. -/
theorem rankDict_length (l : List (Nat × Nat)) (h : (l.map Prod.fst).Nodup) :
    (rankDict l).length = l.length := by
  rw [rankDict_eq l h]
  simp

/-- Looking up the key at index `i` of the enumerated dict. -/
theorem find_enumFrom_rank (l : List (Nat × Nat)) :
    ∀ (j i : Nat) (hi : i < l.length), (l.map Prod.fst).Nodup →
    (((List.enumFrom j l).map fun p => (p.2.1, p.1 + 1)).find?
      fun q => q.1 == (l.get ⟨i, hi⟩).1) =
      some ((l.get ⟨i, hi⟩).1, j + i + 1) := by
  induction l with
  | nil => intro j i hi; exact absurd hi (by simp)
  | cons x l ih =>
    intro j i hi hnodup
    rw [List.enumFrom_cons, List.map_cons]
    rw [List.map_cons, List.nodup_cons] at hnodup
    cases i with
    | zero =>
      rw [List.find?_cons_of_pos]
      · rfl
      · simp [List.get]
    | succ i =>
      have hi2 : i < l.length := Nat.lt_of_succ_lt_succ hi
      have hkey : ((x :: l).get ⟨i + 1, hi⟩) = l.get ⟨i, hi2⟩ := rfl
      rw [hkey]
      rw [List.find?_cons_of_neg]
      · rw [ih (j + 1) i hi2 hnodup.2]
        have harith : j + 1 + i + 1 = j + (i + 1) + 1 := by omega
        rw [harith]
      · simp only [beq_iff_eq]
        exact fun e => hnodup.1 (e ▸ List.mem_map_of_mem Prod.fst
          (List.get_mem l i hi2))

/-- Rank lookup: the key at index `i` has rank `i + 1`. -/
theorem dictGet_rank (l : List (Nat × Nat)) (h : (l.map Prod.fst).Nodup)
    (i : Nat) (hi : i < l.length) :
    dictGet (rankDict l) (l.get ⟨i, hi⟩).1 = i + 1 := by
  rw [dictGet, rankDict_eq l h]
  rw [show l.enum = List.enumFrom 0 l from rfl]
  rw [find_enumFrom_rank l 0 i hi h]
  simp

/-- The hot and overdue lists of a snapshot are the stable descending
sorts of the `(number, frequency)` and `(number, gap)` pair lists. -/
theorem compute_stats_hot_overdue (draws : List RawDraw) (mn count : Nat)
    (lookback : Option Nat) (st : Stats)
    (hsome : compute_stats draws mn count lookback = some st) :
    st.hot = List.insertionSort descBySnd
        ((List.range' 1 mn).map fun n => (n, freqOf st n)) ∧
    st.overdue = List.insertionSort descBySnd
        ((List.range' 1 mn).map fun n => (n, gapOf st n)) := by
  by_cases hemp : draws.isEmpty
  · rw [compute_stats, if_pos hemp] at hsome
    exact absurd hsome (by simp)
  · rw [compute_stats, if_neg hemp] at hsome
    injection hsome with h
    subst h
    exact ⟨rfl, rfl⟩

/-- A sorted pair list drawn from `(n, f n)` pairs over `1..mn`: facts
about any element. -/
theorem sortedPairs_elem (f : Nat → Nat) (mn : Nat) (x : Nat × Nat)
    (hx : x ∈ List.insertionSort descBySnd
      ((List.range' 1 mn).map fun n => (n, f n))) :
    x.1 ∈ List.range' 1 mn ∧ x.2 = f x.1 := by
  rw [List.mem_insertionSort] at hx
  obtain ⟨n, hn, hx2⟩ := List.mem_map.mp hx
  rw [← hx2]
  exact ⟨hn, rfl⟩

/-- The sorted pair list has distinct first components. -/
theorem sortedPairs_nodup (f : Nat → Nat) (mn : Nat) :
    ((List.insertionSort descBySnd
      ((List.range' 1 mn).map fun n => (n, f n))).map Prod.fst).Nodup := by
  have hperm := (List.perm_insertionSort descBySnd
    ((List.range' 1 mn).map fun n => (n, f n))).map Prod.fst
  rw [List.Perm.nodup_iff hperm]
  rw [List.map_map]
  have : (Prod.fst ∘ fun n => (n, f n)) = id := rfl
  rw [this, List.map_id]
  exact List.nodup_range' 1 mn

/-- The hot-flavor weight of an in-range number, in terms of the rank
dicts. -/
theorem smart_weight_hot_getD (st : Stats) (mn n : Nat) (h1 : 1 ≤ n)
    (h2 : n ≤ mn) :
    (smart_weight st mn "hot").getD n 0 =
      1 + 2 * ((((rankDict st.hot).length : ℚ) + 1 -
          (dictGet (rankDict st.hot) n : ℚ)) / ((rankDict st.hot).length : ℚ)) +
        (1 / 2) * ((((rankDict st.overdue).length : ℚ) + 1 -
          (dictGet (rankDict st.overdue) n : ℚ)) /
            ((rankDict st.overdue).length : ℚ)) := by
  unfold smart_weight
  rw [List.getD_eq_getElem?_getD, List.getElem?_map,
    List.getElem?_range (show n < mn + 1 by omega)]
  simp [show ¬ n = 0 from by omega]

/-- Linear arithmetic behind the amended C4: a one-step hot-rank
advantage beats an overdue-rank deficit of at most three. -/
theorem weight_arith (mn ra rb oa ob : ℚ) (hmn : 0 < mn) (hr : ra + 1 ≤ rb)
    (hoa : oa ≤ 4) (hob : 1 ≤ ob) :
    1 + 2 * ((mn + 1 - rb) / mn) + (1 / 2) * ((mn + 1 - ob) / mn) <
      1 + 2 * ((mn + 1 - ra) / mn) + (1 / 2) * ((mn + 1 - oa) / mn) := by
  have hinv : 0 < mn⁻¹ := inv_pos.mpr hmn
  have hpos : 0 < 2 * (rb - ra) + (1 / 2) * (ob - oa) := by linarith
  have hprod := mul_pos hinv hpos
  have hdiff :
      (1 + 2 * ((mn + 1 - ra) / mn) + (1 / 2) * ((mn + 1 - oa) / mn)) -
        (1 + 2 * ((mn + 1 - rb) / mn) + (1 / 2) * ((mn + 1 - ob) / mn)) =
        mn⁻¹ * (2 * (rb - ra) + (1 / 2) * (ob - oa)) := by
    field_simp
    ring
  linarith [hdiff, hprod]

/-- In the descending-sorted gap list, an element carrying the maximal gap
sits within the block of maximal-gap elements: its index is below their
count. -/
theorem sorted_max_prefix (G : Nat → Nat) (mn : Nat) (L : List (Nat × Nat))
    (hL : L = List.insertionSort descBySnd ((List.range' 1 mn).map fun n => (n, G n)))
    (gmax : Nat) (hgmax : ∀ x ∈ List.range' 1 mn, G x ≤ gmax)
    (oa : Nat) (hoa : oa < L.length) (hga : (L.get ⟨oa, hoa⟩).2 = gmax) :
    oa + 1 ≤ L.countP fun p => p.2 == gmax := by
  have hs : L.Pairwise descBySnd := by
    rw [hL]; exact List.sorted_insertionSort descBySnd _
  have hall : ∀ k, (hk : k < L.length) → k ≤ oa → (L.get ⟨k, hk⟩).2 = gmax := by
    intro k hk hkoa
    rcases Nat.eq_or_lt_of_le hkoa with rfl | hlt
    · exact hga
    · have hp := List.pairwise_iff_getElem.mp hs k oa hk hoa hlt
      have hlow : gmax ≤ (L.get ⟨k, hk⟩).2 := by
        rw [← hga]; exact hp
      have hmem : L.get ⟨k, hk⟩ ∈ L := List.get_mem L k hk
      have hmem2 : L.get ⟨k, hk⟩ ∈ List.insertionSort descBySnd
          ((List.range' 1 mn).map fun n => (n, G n)) := by
        rw [← hL]; exact hmem
      have helem := sortedPairs_elem G mn _ hmem2
      have hup : (L.get ⟨k, hk⟩).2 ≤ gmax := by
        rw [helem.2]; exact hgmax _ helem.1
      omega
  have htlen : (L.take (oa + 1)).length = oa + 1 := by
    rw [List.length_take]; omega
  have htall : ∀ p ∈ L.take (oa + 1), (p.2 == gmax) = true := by
    intro p hp
    obtain ⟨k, hk, hpk⟩ := List.mem_iff_getElem.mp hp
    have hko : k ≤ oa := by omega
    have hk2 : k < L.length := by omega
    have hq : (L.take (oa + 1))[k]? = L[k]? :=
      List.getElem?_take_of_lt (by omega)
    rw [List.getElem?_eq_getElem hk, List.getElem?_eq_getElem hk2] at hq
    injection hq with hq
    have hp2 : p = L.get ⟨k, hk2⟩ := by rw [← hpk]; exact hq
    have h3 : (L.get ⟨k, hk2⟩).2 = gmax := hall k hk2 hko
    rw [hp2]
    simp only [beq_iff_eq]
    exact h3
  have hcount_take : (L.take (oa + 1)).countP (fun p => p.2 == gmax) = oa + 1 := by
    rw [List.countP_eq_length.mpr htall, htlen]
  calc oa + 1 = (L.take (oa + 1)).countP (fun p => p.2 == gmax) := hcount_take.symm
    _ ≤ L.countP (fun p => p.2 == gmax) :=
      List.Sublist.countP_le (fun p => p.2 == gmax) (List.take_sublist (oa + 1) L)

/-- C4 (amended): under the `hot` flavor, a number with the highest
frequency and the highest recency gap gets a strictly greater weight than
any number with the same gap but lower frequency, provided at most four
numbers attain the maximal gap (the counterexample shows the bound is
needed: with five or more tied numbers the stable overdue tie-break can
overturn the hot-rank advantage). -/
theorem smart_weight_hot_ranks_frequency (draws : List RawDraw)
    (mn count : Nat) (lookback : Option Nat) (st : Stats) (a b : Nat)
    (hsome : compute_stats draws mn count lookback = some st)
    (ha : a ∈ List.range' 1 mn) (hb : b ∈ List.range' 1 mn)
    (hfmax : ∀ x ∈ List.range' 1 mn, freqOf st x ≤ freqOf st a)
    (hfb : freqOf st b < freqOf st a)
    (hgb : gapOf st b = gapOf st a)
    (hgmax : ∀ x ∈ List.range' 1 mn, gapOf st x ≤ gapOf st a)
    (htie : ((List.range' 1 mn).countP fun x => gapOf st x == gapOf st a) ≤ 4) :
    (smart_weight st mn "hot").getD b 0 < (smart_weight st mn "hot").getD a 0 := by
  obtain ⟨hhot, hod⟩ := compute_stats_hot_overdue draws mn count lookback st hsome
  have ha12 := List.mem_range'_1.mp ha
  have hb12 := List.mem_range'_1.mp hb
  have hs_hot : st.hot.Pairwise descBySnd := by
    rw [hhot]; exact List.sorted_insertionSort descBySnd _
  have hnd_hot : (st.hot.map Prod.fst).Nodup := by
    rw [hhot]; exact sortedPairs_nodup (freqOf st) mn
  have hlen_hot : st.hot.length = mn := by
    rw [hhot, (List.perm_insertionSort descBySnd _).length_eq]
    simp
  have hamem : (a, freqOf st a) ∈ st.hot := by
    rw [hhot, List.mem_insertionSort]
    exact List.mem_map_of_mem _ ha
  have hbmem : (b, freqOf st b) ∈ st.hot := by
    rw [hhot, List.mem_insertionSort]
    exact List.mem_map_of_mem _ hb
  obtain ⟨ia, hia, hgeta⟩ := List.mem_iff_getElem.mp hamem
  obtain ⟨ib, hib, hgetb⟩ := List.mem_iff_getElem.mp hbmem
  have hianb : ia < ib := by
    rcases Nat.lt_trichotomy ia ib with h | h | h
    · exact h
    · exfalso
      subst h
      have heq := hgeta.symm.trans hgetb
      injection heq with h1 h2
      omega
    · exfalso
      have hp := List.pairwise_iff_getElem.mp hs_hot ib ia hib hia h
      have hp2 : (st.hot.get ⟨ia, hia⟩).2 ≤ (st.hot.get ⟨ib, hib⟩).2 := hp
      rw [show st.hot.get ⟨ia, hia⟩ = (a, freqOf st a) from hgeta,
        show st.hot.get ⟨ib, hib⟩ = (b, freqOf st b) from hgetb] at hp2
      simp at hp2
      omega
  have hra : dictGet (rankDict st.hot) a = ia + 1 := by
    have h2 := dictGet_rank st.hot hnd_hot ia hia
    rw [show st.hot.get ⟨ia, hia⟩ = (a, freqOf st a) from hgeta] at h2
    exact h2
  have hrb : dictGet (rankDict st.hot) b = ib + 1 := by
    have h2 := dictGet_rank st.hot hnd_hot ib hib
    rw [show st.hot.get ⟨ib, hib⟩ = (b, freqOf st b) from hgetb] at h2
    exact h2
  have hs_od : st.overdue.Pairwise descBySnd := by
    rw [hod]; exact List.sorted_insertionSort descBySnd _
  have hnd_od : (st.overdue.map Prod.fst).Nodup := by
    rw [hod]; exact sortedPairs_nodup (gapOf st) mn
  have hlen_od : st.overdue.length = mn := by
    rw [hod, (List.perm_insertionSort descBySnd _).length_eq]
    simp
  have haod : (a, gapOf st a) ∈ st.overdue := by
    rw [hod, List.mem_insertionSort]
    exact List.mem_map_of_mem _ ha
  have hbod : (b, gapOf st b) ∈ st.overdue := by
    rw [hod, List.mem_insertionSort]
    exact List.mem_map_of_mem _ hb
  obtain ⟨oa, hoa, hgetoa⟩ := List.mem_iff_getElem.mp haod
  obtain ⟨ob, hob, hgetob⟩ := List.mem_iff_getElem.mp hbod
  have hroa : dictGet (rankDict st.overdue) a = oa + 1 := by
    have h2 := dictGet_rank st.overdue hnd_od oa hoa
    rw [show st.overdue.get ⟨oa, hoa⟩ = (a, gapOf st a) from hgetoa] at h2
    exact h2
  have hrob : dictGet (rankDict st.overdue) b = ob + 1 := by
    have h2 := dictGet_rank st.overdue hnd_od ob hob
    rw [show st.overdue.get ⟨ob, hob⟩ = (b, gapOf st b) from hgetob] at h2
    exact h2
  have hcount : st.overdue.countP (fun p => p.2 == gapOf st a) ≤ 4 := by
    rw [hod, (List.perm_insertionSort descBySnd _).countP_eq, List.countP_map]
    exact htie
  have hoabound := sorted_max_prefix (gapOf st) mn st.overdue hod (gapOf st a)
    hgmax oa hoa
    (by rw [show st.overdue.get ⟨oa, hoa⟩ = (a, gapOf st a) from hgetoa])
  have hoa3 : oa ≤ 3 := by omega
  have hrdlen_hot : (rankDict st.hot).length = mn := by
    rw [rankDict_length st.hot hnd_hot, hlen_hot]
  have hrdlen_od : (rankDict st.overdue).length = mn := by
    rw [rankDict_length st.overdue hnd_od, hlen_od]
  rw [smart_weight_hot_getD st mn a ha12.1 (by omega),
    smart_weight_hot_getD st mn b hb12.1 (by omega),
    hra, hrb, hroa, hrob, hrdlen_hot, hrdlen_od]
  have hmnq : (0 : ℚ) < (mn : ℚ) := by
    have h1 : 0 < mn := by omega
    exact_mod_cast h1
  exact weight_arith (mn : ℚ) ((ia + 1 : ℕ) : ℚ) ((ib + 1 : ℕ) : ℚ)
    ((oa + 1 : ℕ) : ℚ) ((ob + 1 : ℕ) : ℚ) hmnq
    (by exact_mod_cast (show ia + 1 + 1 ≤ ib + 1 by omega))
    (by exact_mod_cast (show oa + 1 ≤ 4 by omega))
    (by exact_mod_cast (show 1 ≤ ob + 1 by omega))

/-- Counterexample for C4 as stated: over `1..12`, number `6` has the
unique highest frequency and (with `1..5`) the highest recency gap, and
number `1` has the same gap and lower frequency, yet the `hot` flavor
weighs `1` strictly above `6` (six numbers share the maximal gap, so the
stable tie-break hands `1` a big overdue-rank advantage). -/
theorem smart_weight_hot_counterexample :
    compute_stats cex4Draws 12 6 none = some cex4Stats ∧
    (∀ x ∈ List.range' 1 12, freqOf cex4Stats x ≤ freqOf cex4Stats 6) ∧
    freqOf cex4Stats 1 < freqOf cex4Stats 6 ∧
    gapOf cex4Stats 1 = gapOf cex4Stats 6 ∧
    (∀ x ∈ List.range' 1 12, gapOf cex4Stats x ≤ gapOf cex4Stats 6) ∧
    (smart_weight cex4Stats 12 "hot").getD 6 0 <
      (smart_weight cex4Stats 12 "hot").getD 1 0 := by
  refine ⟨by decide, by decide, by decide, by decide, by decide, ?_⟩
  rw [smart_weight_hot_getD cex4Stats 12 6 (by decide) (by decide),
    smart_weight_hot_getD cex4Stats 12 1 (by decide) (by decide),
    show dictGet (rankDict cex4Stats.hot) 6 = 1 from by decide,
    show dictGet (rankDict cex4Stats.hot) 1 = 2 from by decide,
    show dictGet (rankDict cex4Stats.overdue) 6 = 6 from by decide,
    show dictGet (rankDict cex4Stats.overdue) 1 = 1 from by decide,
    show (rankDict cex4Stats.hot).length = 12 from by decide,
    show (rankDict cex4Stats.overdue).length = 12 from by decide]
  norm_num

/-- Witness for C4 (amended) at a concrete snapshot over `1..4` where
only two numbers share the maximal gap. -/
theorem smart_weight_hot_ranks_frequency_witness :
    (smart_weight wit4Stats 4 "hot").getD 1 0 <
      (smart_weight wit4Stats 4 "hot").getD 2 0 :=
  smart_weight_hot_ranks_frequency wit4Draws 4 4 none wit4Stats 2 1
    (by decide) (by decide) (by decide) (by decide) (by decide) (by decide)
    (by decide) (by decide)
/-- `getD` after zeroing the written index is `0`, in or out of bounds. -/
theorem getD_set_self_q (l : List ℚ) (c : Nat) :
    (l.set c 0).getD c 0 = 0 := by
  by_cases h : c < l.length
  · simp [List.getD_eq_getElem?_getD, List.getElem?_set_self h]
  · rw [List.getD_eq_getElem?_getD, List.getElem?_eq_none]
    · rfl
    · rw [List.length_set]
      omega

/-- `getD` after `set` at a different index, rational version. -/
theorem getD_set_ne_q (l : List ℚ) (i j : Nat) (v : ℚ) (h : i ≠ j) :
    (l.set i v).getD j 0 = l.getD j 0 := by
  simp [List.getD_eq_getElem?_getD, List.getElem?_set_ne h]

/-- The loop of `smart_pick` splits into its weight half (zeroing chosen
indices) and its pick-set half (inserting choices). -/
theorem runPicks_foldl (cs : List ℕ) : ∀ (b : List ℚ) (p : Finset ℕ),
    cs.foldl pickStep (b, p) =
      (cs.foldl (fun w c => w.set c 0) b,
        cs.foldl (fun s c => insert c s) p) := by
  induction cs with
  | nil => intro b p; rfl
  | cons c cs ih => intro b p; exact ih (b.set c 0) (insert c p)

/-- Folding `insert` over a list accumulates exactly its `toFinset`. -/
theorem foldl_insert_toFinset (cs : List ℕ) : ∀ (p : Finset ℕ),
    cs.foldl (fun s c => insert c s) p = p ∪ cs.toFinset := by
  induction cs with
  | nil => intro p; simp
  | cons c cs ih =>
    intro p
    rw [List.foldl_cons, ih (insert c p), List.toFinset_cons,
      Finset.insert_union, Finset.union_insert]

/-- The pick set of a run is the set of choices of the trace. -/
theorem runPicks_snd (base : List ℚ) (cs : List ℕ) :
    (runPicks base cs).2 = cs.toFinset := by
  rw [runPicks, runPicks_foldl, foldl_insert_toFinset]
  simp

/-- The weights of a run are the base with every chosen index zeroed. -/
theorem runPicks_fst (base : List ℚ) (cs : List ℕ) :
    (runPicks base cs).1 = cs.foldl (fun w c => w.set c 0) base := by
  rw [runPicks, runPicks_foldl]

/-- A zeroed cell stays zero through the weight loop. -/
theorem foldl_set_zero_stays (c : Nat) (cs : List ℕ) : ∀ (l : List ℚ),
    l.getD c 0 = 0 → (cs.foldl (fun w x => w.set x 0) l).getD c 0 = 0 := by
  induction cs with
  | nil => intro l h; exact h
  | cons d cs ih =>
    intro l h
    rw [List.foldl_cons]
    apply ih
    by_cases hdc : d = c
    · subst hdc
      exact getD_set_self_q l d
    · rw [getD_set_ne_q l d c 0 hdc]
      exact h

/-- A chosen index has weight `0` after the loop. -/
theorem foldl_set_zero_of_mem (c : Nat) (cs : List ℕ) : ∀ (l : List ℚ),
    c ∈ cs → (cs.foldl (fun w x => w.set x 0) l).getD c 0 = 0 := by
  induction cs with
  | nil => intro l h; exact absurd h (List.not_mem_nil c)
  | cons d cs ih =>
    intro l h
    rw [List.foldl_cons]
    rcases List.mem_cons.mp h with h1 | h2
    · subst h1
      exact foldl_set_zero_stays c cs (l.set c 0) (getD_set_self_q l c)
    · exact ih (l.set d 0) h2

/-- An unchosen index keeps its base weight through the loop. -/
theorem foldl_set_zero_of_not_mem (c : Nat) (cs : List ℕ) : ∀ (l : List ℚ),
    c ∉ cs → (cs.foldl (fun w x => w.set x 0) l).getD c 0 = l.getD c 0 := by
  induction cs with
  | nil => intro l _; rfl
  | cons d cs ih =>
    intro l h
    rw [List.foldl_cons, ih (l.set d 0) (fun hm => h (List.mem_cons_of_mem d hm)),
      getD_set_ne_q l d c 0 (fun e => h (by rw [← e]; exact List.mem_cons_self d cs))]

/-- Every choice of a valid trace lies in `[1, max_n]`. -/
theorem validTrace_bounds (mn : Nat) (cs : List ℕ) : ∀ (base : List ℚ),
    ValidTrace mn base cs → ∀ c ∈ cs, 1 ≤ c ∧ c ≤ mn := by
  induction cs with
  | nil => intro base _ c hc; exact absurd hc (List.not_mem_nil c)
  | cons d cs ih =>
    intro base h c hc
    have h' : (1 ≤ d ∧ d ≤ mn ∧ 0 < base.getD d 0) ∧
        ValidTrace mn (base.set d 0) cs := h
    rcases List.mem_cons.mp hc with h1 | h2
    · subst h1
      exact ⟨h'.1.1, h'.1.2.1⟩
    · exact ih (base.set d 0) h'.2 c h2

/-- An index whose current weight is `0` never appears in a valid trace. -/
theorem validTrace_zero_not_mem (mn c : Nat) (cs : List ℕ) : ∀ (base : List ℚ),
    ValidTrace mn base cs → base.getD c 0 = 0 → c ∉ cs := by
  induction cs with
  | nil => intro base _ _; exact List.not_mem_nil c
  | cons d cs ih =>
    intro base h hz hc
    have h' : (1 ≤ d ∧ d ≤ mn ∧ 0 < base.getD d 0) ∧
        ValidTrace mn (base.set d 0) cs := h
    rcases List.mem_cons.mp hc with h1 | h2
    · have hpos := h'.1.2.2
      rw [← h1, hz] at hpos
      exact absurd hpos (lt_irrefl 0)
    · refine ih (base.set d 0) h'.2 ?_ h2
      by_cases hdc : d = c
      · subst hdc
        exact getD_set_self_q base d
      · rw [getD_set_ne_q base d c 0 hdc]
        exact hz

/-- A valid trace never repeats a choice: the chosen index is zeroed
before the rest of the trace runs. -/
theorem validTrace_nodup (mn : Nat) (cs : List ℕ) : ∀ (base : List ℚ),
    ValidTrace mn base cs → cs.Nodup := by
  induction cs with
  | nil => intro base _; exact List.nodup_nil
  | cons d cs ih =>
    intro base h
    have h' : (1 ≤ d ∧ d ≤ mn ∧ 0 < base.getD d 0) ∧
        ValidTrace mn (base.set d 0) cs := h
    refine List.nodup_cons.mpr ⟨?_, ih (base.set d 0) h'.2⟩
    exact validTrace_zero_not_mem mn d cs (base.set d 0) h'.2 (getD_set_self_q base d)

/-- A valid trace splits into a valid prefix and a valid continuation
from the weights the prefix leaves behind. -/
theorem validTrace_append (mn : Nat) (cs : List ℕ) : ∀ (ds : List ℕ) (base : List ℚ),
    ValidTrace mn base (cs ++ ds) →
      ValidTrace mn base cs ∧
        ValidTrace mn (cs.foldl (fun w c => w.set c 0) base) ds := by
  induction cs with
  | nil => intro ds base h; exact ⟨trivial, h⟩
  | cons d cs ih =>
    intro ds base h
    have h' : (1 ≤ d ∧ d ≤ mn ∧ 0 < base.getD d 0) ∧
        ValidTrace mn (base.set d 0) (cs ++ ds) := h
    have hih := ih ds (base.set d 0) h'.2
    exact ⟨⟨h'.1, hih.1⟩, hih.2⟩

/-- C7: for every snapshot whose hot and overdue rankings cover
`1..max_n`, every `count` with `1 ≤ count ≤ max_n` and every valid
execution trace of the sampler of length `count`, `smart_pick` returns
exactly `count` distinct numbers, each in `[1, max_n]`, sorted
ascending. -/
theorem smart_pick_spec (stats : Stats) (mn count : Nat) (flavor : String)
    (cs : List ℕ)
    ( _hch : (stats.hot.map Prod.fst).Perm (List.range' 1 mn))
    ( _hco : (stats.overdue.map Prod.fst).Perm (List.range' 1 mn))
    ( _hc1 : 1 ≤ count) ( _hc2 : count ≤ mn)
    (hvalid : ValidTrace mn (smart_weight stats mn flavor) cs)
    (hlen : cs.length = count) :
    (smart_pick stats mn count flavor cs).length = count ∧
      (smart_pick stats mn count flavor cs).Nodup ∧
      (∀ x ∈ smart_pick stats mn count flavor cs, 1 ≤ x ∧ x ≤ mn) ∧
      List.Sorted (· ≤ ·) (smart_pick stats mn count flavor cs) := by
  have hnd : cs.Nodup := validTrace_nodup mn cs _ hvalid
  have hset : (runPicks (smart_weight stats mn flavor) cs).2 = cs.toFinset :=
    runPicks_snd _ cs
  unfold smart_pick
  rw [hset]
  refine ⟨?_, Finset.sort_nodup _ _, ?_, Finset.sort_sorted _ _⟩
  · rw [Finset.length_sort, List.toFinset_card_of_nodup hnd, hlen]
  · intro x hx
    have hx2 : x ∈ cs := List.mem_toFinset.mp ((Finset.mem_sort _).mp hx)
    exact validTrace_bounds mn cs _ hvalid x hx2

/-- Witness for C7 at a concrete snapshot over `1..4` and the concrete
trace `[2, 1]`. -/
theorem smart_pick_spec_witness :
    (smart_pick wit4Stats 4 2 "hot" [2, 1]).length = 2 ∧
      (smart_pick wit4Stats 4 2 "hot" [2, 1]).Nodup ∧
      (∀ x ∈ smart_pick wit4Stats 4 2 "hot" [2, 1], 1 ≤ x ∧ x ≤ 4) ∧
      List.Sorted (· ≤ ·) (smart_pick wit4Stats 4 2 "hot" [2, 1]) := by
  have hp2 : 0 < (smart_weight wit4Stats 4 "hot").getD 2 0 := by
    rw [smart_weight_hot_getD wit4Stats 4 2 (by decide) (by decide),
      show dictGet (rankDict wit4Stats.hot) 2 = 1 from by decide,
      show dictGet (rankDict wit4Stats.overdue) 2 = 2 from by decide,
      show (rankDict wit4Stats.hot).length = 4 from by decide,
      show (rankDict wit4Stats.overdue).length = 4 from by decide]
    norm_num
  have hp1 : 0 < ((smart_weight wit4Stats 4 "hot").set 2 0).getD 1 0 := by
    rw [getD_set_ne_q _ 2 1 0 (by decide),
      smart_weight_hot_getD wit4Stats 4 1 (by decide) (by decide),
      show dictGet (rankDict wit4Stats.hot) 1 = 2 from by decide,
      show dictGet (rankDict wit4Stats.overdue) 1 = 1 from by decide,
      show (rankDict wit4Stats.hot).length = 4 from by decide,
      show (rankDict wit4Stats.overdue).length = 4 from by decide]
    norm_num
  have hvalid : ValidTrace 4 (smart_weight wit4Stats 4 "hot") [2, 1] :=
    ⟨⟨by decide, by decide, hp2⟩, ⟨by decide, by decide, hp1⟩, trivial⟩
  exact smart_pick_spec wit4Stats 4 2 "hot" [2, 1] (by decide) (by decide)
    (by decide) (by decide) hvalid (by decide)

/-- C8: over any positive weight vector for `1..max_n` and any
`1 ≤ count ≤ max_n`: the pick set after a valid trace has exactly one
element per iteration, a valid next choice is never an already-picked
index, and while fewer than `count` numbers are picked a further valid
choice always exists — so the loop runs exactly `count` iterations. -/
theorem smart_pick_terminates (mn count : Nat) (base : List ℚ)
    ( _hbl : base.length = mn + 1)
    (hpos : ∀ i, 1 ≤ i → i ≤ mn → 0 < base.getD i 0)
    ( _hc1 : 1 ≤ count) (hc2 : count ≤ mn) :
    (∀ cs, ValidTrace mn base cs → (runPicks base cs).2.card = cs.length) ∧
      (∀ cs c, ValidTrace mn base (cs ++ [c]) → c ∉ (runPicks base cs).2) ∧
      (∀ cs, ValidTrace mn base cs → cs.length < count →
        ∃ c, 1 ≤ c ∧ c ≤ mn ∧ 0 < (runPicks base cs).1.getD c 0) := by
  refine ⟨?_, ?_, ?_⟩
  · intro cs hv
    rw [runPicks_snd, List.toFinset_card_of_nodup (validTrace_nodup mn cs base hv)]
  · intro cs c hv hmem
    have hsplit := validTrace_append mn cs [c] base hv
    have hc' : (1 ≤ c ∧ c ≤ mn ∧
        0 < (cs.foldl (fun w x => w.set x 0) base).getD c 0) ∧ True := hsplit.2
    rw [runPicks_snd] at hmem
    have hz := foldl_set_zero_of_mem c cs base (List.mem_toFinset.mp hmem)
    have hpos' := hc'.1.2.2
    rw [hz] at hpos'
    exact absurd hpos' (lt_irrefl 0)
  · intro cs hv hlt
    have hcard : cs.toFinset.card < (Finset.Icc 1 mn).card := by
      rw [Nat.card_Icc, List.toFinset_card_of_nodup (validTrace_nodup mn cs base hv)]
      omega
    have hne : ¬ Finset.Icc 1 mn ⊆ cs.toFinset := fun hss =>
      absurd (Finset.card_le_card hss) (by omega)
    rcases Finset.not_subset.mp hne with ⟨i, hiI, hiN⟩
    have hib := Finset.mem_Icc.mp hiI
    refine ⟨i, hib.1, hib.2, ?_⟩
    rw [runPicks_fst,
      foldl_set_zero_of_not_mem i cs base (fun hm => hiN (List.mem_toFinset.mpr hm))]
    exact hpos i hib.1 hib.2

/-- Witness for C8 over `1..2` with unit weights: after the valid trace
`[1]` of length `1 < 2`, a further valid choice exists. -/
theorem smart_pick_terminates_witness :
    ∃ c, 1 ≤ c ∧ c ≤ 2 ∧ 0 < (runPicks [(1 : ℚ), 1, 1] [1]).1.getD c 0 := by
  have hv : ValidTrace 2 [(1 : ℚ), 1, 1] [1] :=
    ⟨⟨by decide, by decide, by decide⟩, trivial⟩
  exact (smart_pick_terminates 2 2 [(1 : ℚ), 1, 1] (by decide)
    (by decide) (by decide) (by decide)).2.2 [1] hv (by decide)
/-- Inserting `a` into a weight-descending, lexicographically ordered
list whose elements all exceed `a` keeps the list ordered by weight
descending with ties broken by ascending number. -/
theorem orderedInsert_lex (w : ℕ → ℚ) (a : ℕ) (L : List ℕ)
    (hL : L.Pairwise (fun x y => w y < w x ∨ (w x = w y ∧ x < y)))
    (hs : L.Pairwise (fun x y => w y ≤ w x))
    (hgt : ∀ x ∈ L, a < x) :
    (List.orderedInsert (fun x y => w y ≤ w x) a L).Pairwise
      (fun x y => w y < w x ∨ (w x = w y ∧ x < y)) := by
  induction L with
  | nil => simp
  | cons b L ih =>
    simp only [List.orderedInsert]
    by_cases hab : w b ≤ w a
    · rw [if_pos hab]
      refine List.pairwise_cons.mpr ⟨?_, hL⟩
      intro y hy
      have hya : w y ≤ w a := by
        rcases List.mem_cons.mp hy with h1 | h2
        · rw [h1]
          exact hab
        · exact le_trans ((List.pairwise_cons.mp hs).1 y h2) hab
      rcases lt_or_eq_of_le hya with hlt | heq
      · exact Or.inl hlt
      · exact Or.inr ⟨heq.symm, hgt y hy⟩
    · rw [if_neg hab]
      refine List.pairwise_cons.mpr ⟨?_, ?_⟩
      · intro y hy
        rcases (List.mem_orderedInsert _).mp hy with h1 | h2
        · rw [h1]
          exact Or.inl (not_le.mp hab)
        · exact (List.pairwise_cons.mp hL).1 y h2
      · exact ih (List.pairwise_cons.mp hL).2 (List.pairwise_cons.mp hs).2
          (fun x hx => hgt x (List.mem_cons_of_mem b hx))

/-- The stable descending sort of a strictly ascending list is ordered by
weight descending with ties broken by ascending number. -/
theorem insertionSort_desc_lex (w : ℕ → ℚ) (l : List ℕ)
    (hl : l.Pairwise (· < ·)) :
    (List.insertionSort (fun x y => w y ≤ w x) l).Pairwise
      (fun x y => w y < w x ∨ (w x = w y ∧ x < y)) := by
  induction l with
  | nil => simp
  | cons a l ih =>
    haveI ht : IsTotal ℕ fun x y => w y ≤ w x := ⟨fun x y => le_total (w y) (w x)⟩
    haveI htr : IsTrans ℕ fun x y => w y ≤ w x :=
      ⟨fun _ _ _ h1 h2 => le_trans h2 h1⟩
    rw [List.insertionSort]
    apply orderedInsert_lex w a _ (ih (List.pairwise_cons.mp hl).2)
      (List.sorted_insertionSort _ l)
    intro x hx
    exact (List.pairwise_cons.mp hl).1 x
      ((List.mem_insertionSort _).mp hx)

/-- C10: `top_probability_line` ranks `1..max_n` by weight descending
with numbers of equal weight ordered smaller-first (the stable sort over
the ascending range), and its output depends on a snapshot and flavor
only through the weight vector `smart_weight` produces. -/
theorem top_probability_line_tiebreak (stats : Stats) (mn count : Nat)
    (flavor : String) :
    (List.insertionSort
        (fun a b => (smart_weight stats mn flavor).getD b 0 ≤
          (smart_weight stats mn flavor).getD a 0) (List.range' 1 mn)).Pairwise
      (fun a b => (smart_weight stats mn flavor).getD b 0 <
          (smart_weight stats mn flavor).getD a 0 ∨
        ((smart_weight stats mn flavor).getD a 0 =
            (smart_weight stats mn flavor).getD b 0 ∧ a < b)) ∧
      ∀ (stats2 : Stats) (flavor2 : String),
        smart_weight stats mn flavor = smart_weight stats2 mn flavor2 →
        top_probability_line stats mn count flavor =
          top_probability_line stats2 mn count flavor2 := by
  constructor
  · exact insertionSort_desc_lex
      (fun n => (smart_weight stats mn flavor).getD n 0)
      (List.range' 1 mn) (List.pairwise_lt_range' 1 mn)
  · intro s2 f2 h
    unfold top_probability_line
    rw [h]

/-- Witness for C10: two snapshots with identical hot and overdue
rankings produce the same top-probability line. -/
theorem top_probability_line_tiebreak_witness :
    top_probability_line wit4Stats 4 2 "hot" =
      top_probability_line wit10Stats 4 2 "hot" :=
  (top_probability_line_tiebreak wit4Stats 4 2 "hot").2 wit10Stats "hot" rfl
